import Mathlib

/-!
# Verification of the PERColator matching / risk / settlement core

Shallow embedding of the Rust sources:
* `crates/model_safety/src/funding.rs` (lazy funding application),
* `crates/model_safety/src/cross_slab.rs` (net-exposure margin),
* `crates/model_safety/src/fee_distribution.rs` (index-based fee distribution),
* `programs/router/src/instructions/cap_ops.rs` and `multi_commit.rs`
  (Vault / Escrow / Capability lifecycle),
* `programs/slab/src/state/orderbook.rs` and
  `programs/slab/src/instructions/commit_fill.rs` (order book and matching).

Machine integers are modelled as `Nat` / `Int`; where the source uses
saturating helpers they are modelled as explicit clamps, where it uses
`checked_*` the model returns `Option` / `Except`, and where a Rust release
build would wrap the model reduces modulo `2^w` explicitly.
-/

set_option maxRecDepth 8000

namespace Perc

/-! ## Fixed-width integer helpers -/

/-- Smallest `i128` value, `-2^127`. -/
def I128MIN : Int := -(2 ^ 127)

/-- Largest `i128` value, `2^127 - 1`. -/
def I128MAX : Int := 2 ^ 127 - 1

/-- Largest `u128` value, `2^128 - 1`. -/
def U128MAX : Nat := 2 ^ 128 - 1

/-- Clamp an integer into the `i128` range (saturation). -/
def satI128 (x : Int) : Int := max I128MIN (min I128MAX x)

/-- Modelled from the spec: `add_i128` of the missing `model_safety::math`
module — "All arithmetic is saturating/checked" (spec §7), and the transition
functions using it are documented "all total, no panics", so it is modelled
as saturating `i128` addition. -/
def add_i128 (a b : Int) : Int := satI128 (a + b)

/-- Modelled from the spec: `sub_i128` of the missing `model_safety::math`
module, saturating `i128` subtraction. -/
def sub_i128 (a b : Int) : Int := satI128 (a - b)

/-- Modelled from the spec: `mul_i128` of the missing `model_safety::math`
module, saturating `i128` multiplication. -/
def mul_i128 (a b : Int) : Int := satI128 (a * b)

/-- Modelled from the spec: `add_u128` of the missing `model_safety::math`
module, saturating `u128` addition. -/
def add_u128 (a b : Nat) : Nat := min (a + b) U128MAX

/-- Modelled from the spec: `sub_u128` of the missing `model_safety::math`
module, saturating `u128` subtraction (truncated `Nat` subtraction). -/
def sub_u128 (a b : Nat) : Nat := a - b

/-- Modelled from the spec: `mul_u128` of the missing `model_safety::math`
module, saturating `u128` multiplication. -/
def mul_u128 (a b : Nat) : Nat := min (a * b) U128MAX

/-- Modelled from the spec: `div_u128` of the missing `model_safety::math`
module; `u128` division never overflows, division by zero yields 0 (it is
never reached by the embedded callers). -/
def div_u128 (a b : Nat) : Nat := a / b

/-! ## Funding engine (`model_safety/src/funding.rs`) -/

/-- Position for funding tracking: `base_size` is `i64`,
`realized_pnl` and `funding_index_offset` are `i128`. -/
structure Position where
  base_size : Int
  realized_pnl : Int
  funding_index_offset : Int
  deriving DecidableEq, Repr

/-- Market funding state: the cumulative funding index (`i128`). -/
structure MarketFunding where
  cumulative_funding_index : Int
  deriving DecidableEq, Repr

/-- `apply_funding` from `funding.rs`: lazy O(1) funding application.
`delta = index - offset`; no-op if zero; else
`realized_pnl += base_size * delta` and the offset snaps to the index. -/
def apply_funding (position : Position) (market : MarketFunding) : Position :=
  if sub_i128 market.cumulative_funding_index position.funding_index_offset = 0 then
    position
  else
    { position with
        realized_pnl := add_i128 position.realized_pnl
          (mul_i128 position.base_size
            (sub_i128 market.cumulative_funding_index position.funding_index_offset)),
        funding_index_offset := market.cumulative_funding_index }

/-! ## Cross-slab margin (`model_safety/src/cross_slab.rs`) -/

/-- Exposure for a single (slab, instrument) position; `exposure` is a
signed `i128`. -/
structure Exposure where
  slab_idx : Nat
  instrument_idx : Nat
  exposure : Int
  deriving DecidableEq, Repr

/-- `i128::checked_add`: `some` of the exact sum when it fits, else `none`. -/
def checkedAddI128 (a b : Int) : Option Int :=
  if I128MIN ≤ a + b ∧ a + b ≤ I128MAX then some (a + b) else none

/-- `u128::checked_mul`: `some` of the exact product when it fits, else `none`. -/
def checkedMulU128 (a b : Nat) : Option Nat :=
  if a * b ≤ U128MAX then some (a * b) else none

/-- The summation loop of `net_exposure_verified`, folding `checked_add`
over the active exposures. -/
def net_exposure_go (net : Int) : List Exposure → Except String Int
  | [] => .ok net
  | e :: rest =>
    match checkedAddI128 net e.exposure with
    | some n => net_exposure_go n rest
    | none => .error "Overflow in net exposure"

/-- `net_exposure_verified` from `cross_slab.rs`: the algebraic (checked)
sum of all signed exposures in the portfolio. -/
def net_exposure_verified (exposures : List Exposure) : Except String Int :=
  net_exposure_go 0 exposures

/-- `margin_on_net_verified` from `cross_slab.rs`: initial margin on NET
exposure. Zero net exposure short-circuits to zero margin; otherwise
`IM = |net| * price * imr / 10_000_000_000` with checked multiplication
(the final `checked_div` by the nonzero constant `10_000_000_000` always
succeeds). -/
def margin_on_net_verified (net_exposure : Int) (avg_price imr_bps : Nat) :
    Except String Nat :=
  if net_exposure = 0 then .ok 0
  else
    match checkedMulU128 net_exposure.natAbs avg_price with
    | none => .error "Overflow in margin calc"
    | some x =>
      match checkedMulU128 x imr_bps with
      | none => .error "Overflow in margin calc"
      | some numerator => .ok (numerator / 10000000000)

/-! ## Fee distribution (`model_safety/src/fee_distribution.rs`) -/

/-- Account state from `model_safety/src/state.rs`, restricted to the fields
read or written by the fee-distribution functions (`pnl_ledger` is an
`i128`; the remaining fields are `u128`). -/
structure Account where
  principal : Nat
  pnl_ledger : Int
  fee_index_user : Nat
  fee_accrued : Nat
  vested_pos_snapshot : Nat
  deriving DecidableEq, Repr

/-- Global state from `model_safety/src/state.rs`, restricted to the
fee-distribution fields (all `u128`). -/
structure State where
  loss_accum : Nat
  fee_index : Nat
  sum_vested_pos_pnl : Nat
  fee_carry : Nat
  deriving DecidableEq, Repr

/-- Fixed-point scaling factor for the fee index (`1e6`). -/
def FEE_SCALE : Nat := 1000000

/-- Modelled from the spec: `effective_positive_pnl` of the missing
`model_safety::warmup` module — "Vested profit: realized profit that has
cleared the warmup throttle"; with the model's default warmup state it is
the positive part of the account's realized-PnL ledger (as pinned by the
in-source tests `test_vested_positive_pnl_zero_for_negative` /
`test_vested_positive_pnl_positive`). -/
def effective_positive_pnl (acc : Account) : Nat := acc.pnl_ledger.toNat

/-- `vested_positive_pnl` from `fee_distribution.rs`: delegates to
`effective_positive_pnl`. -/
def vested_positive_pnl (acc : Account) : Nat := effective_positive_pnl acc

/-- `on_fees` from `fee_distribution.rs`: cover socialized losses first
(`cover = min(fees, loss_accum)`), then distribute the remainder (plus any
carried fees) through the global `fee_index` when `sum_vested_pos_pnl > 0`,
otherwise carry it forward. Returns `(cover, distributable)` and the new
state. -/
def on_fees (s : State) (fees : Nat) : (Nat × Nat) × State :=
  if fees = 0 then ((0, 0), s)
  else
    let cover := if fees > s.loss_accum then s.loss_accum else fees
    let s1 : State := { s with loss_accum := sub_u128 s.loss_accum cover }
    let distributable := sub_u128 fees cover
    if distributable > 0 then
      let total_distributable := add_u128 distributable s1.fee_carry
      let s2 : State := { s1 with fee_carry := 0 }
      if s2.sum_vested_pos_pnl > 0 then
        let numerator := mul_u128 total_distributable FEE_SCALE
        let index_delta := div_u128 numerator s2.sum_vested_pos_pnl
        ((cover, distributable),
          { s2 with fee_index := add_u128 s2.fee_index index_delta })
      else
        ((cover, distributable), { s2 with fee_carry := total_distributable })
    else
      ((cover, distributable), s1)

/-- `on_touch` from `fee_distribution.rs`: accrue fees from the index delta
(winners only), overwrite the user's fee-index snapshot, then lazily
reconcile the account's contribution to `sum_vested_pos_pnl`. Returns the
credited amount, the new global state and the new account. -/
def on_touch (s : State) (acc : Account) : Nat × State × Account :=
  let vested_now := vested_positive_pnl acc
  let credited_acc :=
    if vested_now > 0 then
      let index_delta := sub_u128 s.fee_index acc.fee_index_user
      if index_delta > 0 then
        let raw := mul_u128 index_delta vested_now
        let credit := div_u128 raw FEE_SCALE
        if credit > 0 then
          (credit, { acc with fee_accrued := add_u128 acc.fee_accrued credit })
        else (0, acc)
      else (0, acc)
    else (0, acc)
  let acc2 : Account := { credited_acc.2 with fee_index_user := s.fee_index }
  let prev_snapshot := acc2.vested_pos_snapshot
  if vested_now ≠ prev_snapshot then
    if vested_now > prev_snapshot then
      (credited_acc.1,
        { s with sum_vested_pos_pnl :=
            add_u128 s.sum_vested_pos_pnl (sub_u128 vested_now prev_snapshot) },
        { acc2 with vested_pos_snapshot := vested_now })
    else
      (credited_acc.1,
        { s with sum_vested_pos_pnl :=
            sub_u128 s.sum_vested_pos_pnl (sub_u128 prev_snapshot vested_now) },
        { acc2 with vested_pos_snapshot := vested_now })
  else
    (credited_acc.1, s, acc2)

/-! ## Vault / Escrow / Capability lifecycle (`programs/router`)

The `Cap`, `Escrow` and `Vault` record types and their primitive methods
live in the router's `state` module, which is not under `src/`; they are
modelled here from the spec (§3 Capability / Escrow / Vault, §4.7) and from
the in-source tests of `cap_ops.rs` / `multi_commit.rs` that pin their
behaviour. The lifecycle functions themselves (`mint_cap_for_reserve`,
`cap_debit`, `burn_cap_and_refund`) are embedded from
`programs/router/src/instructions/cap_ops.rs` and `multi_commit.rs`. -/

/-- Pooled vault funding the per-(user,venue,asset) escrows; `balance` and
`total_pledged` are `u128`. Identity fields (router, mint, token account)
are omitted as no embedded function reads them. -/
structure Vault where
  balance : Nat
  total_pledged : Nat
  deriving DecidableEq, Repr

/-- Modelled from the spec: `Vault::available`, the unpledged balance
(pinned by `test_vault_pledge_for_escrow`: pledging 1000 of a 10000 balance
leaves 9000 available). -/
def Vault.available (v : Vault) : Nat := v.balance - v.total_pledged

/-- Modelled from the spec: `Vault::pledge` of the missing router `state`
module: moves `amount` into the pledged total, failing when the available
balance is insufficient (`mint_cap_for_reserve` maps the failure to
`InsufficientFunds`). -/
def Vault.pledge (v : Vault) (amount : Nat) : Except String Vault :=
  if v.available < amount then .error "insufficient vault funds"
  else .ok { v with total_pledged := add_u128 v.total_pledged amount }

/-- Modelled from the spec: `Vault::unpledge`, releasing a pledged amount
(saturating decrease of the pledged total). -/
def Vault.unpledge (v : Vault) (amount : Nat) : Vault :=
  { v with total_pledged := sub_u128 v.total_pledged amount }

/-- Per-(user,venue,asset) escrow; only the `u128` balance is modelled
(identity fields and the frozen flag are read by no embedded function). -/
structure Escrow where
  balance : Nat
  deriving DecidableEq, Repr

/-- Modelled from the spec: `Escrow::credit`, increasing the balance. -/
def Escrow.credit (e : Escrow) (amount : Nat) : Escrow :=
  { e with balance := add_u128 e.balance amount }

/-- Modelled from the spec: `Escrow::debit`, failing when the balance is
insufficient (pinned by `test_cap_debit`). -/
def Escrow.debit (e : Escrow) (amount : Nat) : Except String Escrow :=
  if e.balance < amount then .error "insufficient escrow balance"
  else .ok { e with balance := e.balance - amount }

/-- Capability token: scope (user, venue, asset modelled as opaque numeric
identifiers), max/remaining amount, expiry and the one-way burned flag. -/
structure Cap where
  scope_user : Nat
  scope_slab : Nat
  scope_mint : Nat
  amount_max : Nat
  remaining : Nat
  expiry_ts : Nat
  burned : Bool
  deriving DecidableEq, Repr

/-- The capability error taxonomy mapped by `cap_debit` in `cap_ops.rs`. -/
inductive CapError where
  | Expired
  | InvalidScope
  | InsufficientRemaining
  deriving DecidableEq, Repr

/-- Modelled from the spec: `Cap::new` mints a capability scoped to
(user, slab, mint), carrying `max_charge` and expiring `ttl_ms` after
`current_ts` (pinned by `test_cap_expiry_enforcement`: created at 1000 with
ttl 60000, a debit at 50000 succeeds and one at 200000 fails). -/
def Cap.new (user slab mint : Nat) (max_charge current_ts ttl_ms : Nat) : Cap :=
  { scope_user := user, scope_slab := slab, scope_mint := mint,
    amount_max := max_charge, remaining := max_charge,
    expiry_ts := current_ts + ttl_ms, burned := false }

/-- Modelled from the spec: `Cap::debit` — "a burned/expired capability
authorizes zero further debits"; it checks expiry, scope and the remaining
amount, then decrements the remaining amount. -/
def Cap.debit (cap : Cap) (amount : Nat) (user slab mint current_ts : Nat) :
    Except CapError Cap :=
  if cap.burned ∨ cap.expiry_ts < current_ts then .error .Expired
  else if user ≠ cap.scope_user ∨ slab ≠ cap.scope_slab ∨ mint ≠ cap.scope_mint then
    .error .InvalidScope
  else if cap.remaining < amount then .error .InsufficientRemaining
  else .ok { cap with remaining := cap.remaining - amount }

/-- Modelled from the spec: `Cap::burn` sets the one-way burned flag. -/
def Cap.burn (cap : Cap) : Cap := { cap with burned := true }

/-- `mint_cap_for_reserve` from `cap_ops.rs`: pledge `max_charge` from the
vault, credit the escrow, and mint a time-boxed capability scoped to
(user, slab, mint). Returns the new cap together with the updated vault and
escrow (the `&mut` parameters). -/
def mint_cap_for_reserve (user slab mint : Nat) (max_charge current_ts ttl_ms : Nat)
    (vault : Vault) (escrow : Escrow) : Except String (Cap × Vault × Escrow) :=
  match vault.pledge max_charge with
  | .error _ => .error "InsufficientFunds"
  | .ok vault1 =>
    .ok (Cap.new user slab mint max_charge current_ts ttl_ms, vault1,
      escrow.credit max_charge)

/-- `cap_debit` from `cap_ops.rs`: verify and debit the capability, then
debit the escrow. The (possibly mutated) cap and escrow are returned
alongside the result, mirroring the `&mut` parameters: a failure of the
escrow debit happens after the cap has already been debited. -/
def cap_debit (cap : Cap) (escrow : Escrow) (amount : Nat)
    (user slab mint current_ts : Nat) : Except String Unit × Cap × Escrow :=
  match cap.debit amount user slab mint current_ts with
  | .error .Expired => (.error "CapabilityExpired", cap, escrow)
  | .error .InvalidScope => (.error "InvalidScope", cap, escrow)
  | .error .InsufficientRemaining => (.error "InsufficientFunds", cap, escrow)
  | .ok cap1 =>
    match escrow.debit amount with
    | .error _ => (.error "InsufficientFunds", cap1, escrow)
    | .ok escrow1 => (.ok (), cap1, escrow1)

/-- `burn_cap_and_refund` from `cap_ops.rs`: burn the cap; if its unused
remaining amount is positive and covered by the escrow balance, debit the
escrow and unpledge the vault by that amount. -/
def burn_cap_and_refund (cap : Cap) (escrow : Escrow) (vault : Vault) :
    Except String (Cap × Escrow × Vault) :=
  if cap.remaining > 0 ∧ cap.remaining ≤ escrow.balance then
    match escrow.debit cap.remaining with
    | .error _ => .error "InsufficientFunds"
    | .ok escrow1 => .ok (cap.burn, escrow1, vault.unpledge cap.remaining)
  else .ok (cap.burn, escrow, vault)

/-- `burn_cap_and_refund` from `multi_commit.rs` (same name, different
module): no-op on an already-burned cap; otherwise credit the remaining
amount back to the escrow and burn. No vault is involved. -/
def burn_cap_and_refund_mc (cap : Cap) (escrow : Escrow) : Cap × Escrow :=
  if cap.burned then (cap, escrow)
  else if cap.remaining > 0 then (cap.burn, escrow.credit cap.remaining)
  else (cap.burn, escrow)

/-! ## Order book (`programs/slab/src/state/orderbook.rs`) -/

/-- Maximum number of bid orders per book. -/
def MAX_BIDS : Nat := 19

/-- Maximum number of ask orders per book. -/
def MAX_ASKS : Nat := 19

/-- Largest `i64` value, `2^63 - 1`. -/
def I64MAX : Int := 2 ^ 63 - 1

/-- Reduce an integer to the `i64` value a wrapping (release-mode) Rust
operation would produce. -/
def wrapI64 (x : Int) : Int := (x + 2 ^ 63) % 2 ^ 64 - 2 ^ 63

/-- Reduce an integer to the `i128` value a wrapping (release-mode) Rust
operation would produce. -/
def wrapI128 (x : Int) : Int := (x + 2 ^ 127) % 2 ^ 128 - 2 ^ 127

/-- Order side (`Buy = 0`, `Sell = 1`). -/
inductive Side where
  | Buy
  | Sell
  deriving DecidableEq, Repr

/-- A resting order: id, owner (opaque 32-byte key modelled as a numeric
identifier), side, `i64` limit price and remaining quantity (1e6 scale),
and the timestamp used for FIFO ordering at equal price. -/
structure Order where
  order_id : Nat
  owner : Nat
  side : Side
  price : Int
  qty : Int
  timestamp : Nat
  deriving DecidableEq, Repr

/-- The book area: monotonic order-id counter (`u64`), bids (sorted
descending by price, FIFO by timestamp) and asks (sorted ascending). The
fixed-capacity arrays with their active counts are modelled as lists of the
active orders, bounded by `MAX_BIDS` / `MAX_ASKS` at insertion. -/
structure BookArea where
  next_order_id : Nat
  bids : List Order
  asks : List Order
  deriving DecidableEq, Repr

/-- `BookArea::new`: empty book, order-id counter starting at 1. -/
def BookArea.new : BookArea := ⟨1, [], []⟩

/-- The `next_order_id(&mut self)` method: return the current id and
advance the counter with `u64::wrapping_add(1)`, i.e. modulo `2^64`. -/
def BookArea.take_next_order_id (b : BookArea) : Nat × BookArea :=
  (b.next_order_id, { b with next_order_id := (b.next_order_id + 1) % 2 ^ 64 })

/-- The insertion-position predicate of `insert_sorted`: the new order `o`
goes in front of resting order `x` when it has strictly better price, or
equal price and strictly earlier timestamp (bids: descending price; asks:
ascending price; FIFO within a level). -/
def insert_before (side : Side) (o x : Order) : Bool :=
  match side with
  | .Buy => decide (x.price < o.price) ||
      (decide (o.price = x.price) && decide (o.timestamp < x.timestamp))
  | .Sell => decide (o.price < x.price) ||
      (decide (o.price = x.price) && decide (o.timestamp < x.timestamp))

/-- `insert_sorted` from `orderbook.rs`: insert at the first position whose
resting order the new order beats (shifting the tail), or at the end. -/
def insert_sorted (side : Side) (o : Order) : List Order → List Order
  | [] => [o]
  | x :: xs => if insert_before side o x then o :: x :: xs else x :: insert_sorted side o xs

/-- `insert_order` from `orderbook.rs`: take the next order id (advancing
the counter first, as the source does before the capacity check), reject
when the side is at capacity, else insert in sorted position. The updated
book is returned alongside the result, mirroring `&mut self`. -/
def BookArea.insert_order (b : BookArea) (side : Side) (owner : Nat)
    (price qty : Int) (timestamp : Nat) : Except String Nat × BookArea :=
  let idb := b.take_next_order_id
  let o : Order := ⟨idb.1, owner, side, price, qty, timestamp⟩
  match side with
  | .Buy =>
    if idb.2.bids.length ≥ MAX_BIDS then (.error "Order book full", idb.2)
    else (.ok idb.1, { idb.2 with bids := insert_sorted .Buy o idb.2.bids })
  | .Sell =>
    if idb.2.asks.length ≥ MAX_ASKS then (.error "Order book full", idb.2)
    else (.ok idb.1, { idb.2 with asks := insert_sorted .Sell o idb.2.asks })

/-- The `find_order` + shift-down removal of `orderbook.rs`, on one side:
remove the first order with the given id, returning it and the remaining
list. -/
def remove_first : List Order → Nat → Option (Order × List Order)
  | [], _ => none
  | x :: xs, oid =>
    if x.order_id = oid then some (x, xs)
    else
      match remove_first xs oid with
      | some (o, xs1) => some (o, x :: xs1)
      | none => none

/-- `remove_order` from `orderbook.rs`: search the bids, then the asks, for
the order id; remove and return the first match. -/
def BookArea.remove_order (b : BookArea) (oid : Nat) : Except String (Order × BookArea) :=
  match remove_first b.bids oid with
  | some (o, bids1) => .ok (o, { b with bids := bids1 })
  | none =>
    match remove_first b.asks oid with
    | some (o, asks1) => .ok (o, { b with asks := asks1 })
    | none => .error "Order not found"

/-- The side of the book an order of the given side rests on. -/
def side_orders (side : Side) (b : BookArea) : List Order :=
  match side with
  | .Buy => b.bids
  | .Sell => b.asks

/-! ## Matching (`programs/slab/src/instructions/commit_fill.rs`) -/

/-- The contra side walked by `match_against_book`: buys match the asks,
sells match the bids. -/
def contra_side (side : Side) (b : BookArea) : List Order :=
  match side with
  | .Buy => b.asks
  | .Sell => b.bids

/-- The price check of `match_against_book`: a buy may fill an ask at price
at most the limit, a sell may fill a bid at price at least the limit. -/
def price_acceptable (side : Side) (price limit_px : Int) : Bool :=
  match side with
  | .Buy => decide (price ≤ limit_px)
  | .Sell => decide (limit_px ≤ price)

/-- One fill produced while walking the book: quantity taken, the resting
order's price, and its id. -/
structure Fill where
  qty : Int
  price : Int
  order_id : Nat
  deriving DecidableEq, Repr

/-- The book-walking loop of `match_against_book`: stop when the remaining
quantity is exhausted or the next resting price crosses the limit; else
fill `min(remaining, order.qty)`, decrement the order, record the fill, and
mark the order's id for removal when its quantity reaches zero. Returns the
updated contra-side orders, the fills, and the marked ids, in walk order.
(`remaining -= fill` is an `i64` operation, reduced with `wrapI64`.) -/
def match_walk (side : Side) (limit_px : Int) :
    List Order → Int → List Order × List Fill × List Nat
  | [], _ => ([], [], [])
  | o :: rest, remaining =>
    if remaining ≤ 0 then (o :: rest, [], [])
    else if ¬ price_acceptable side o.price limit_px then (o :: rest, [], [])
    else
      let fill_qty := min remaining o.qty
      let o1 : Order := { o with qty := o.qty - fill_qty }
      let r := match_walk side limit_px rest (wrapI64 (remaining - fill_qty))
      (o1 :: r.1, ⟨fill_qty, o.price, o.order_id⟩ :: r.2.1,
        if o1.qty = 0 then o.order_id :: r.2.2 else r.2.2)

/-- The fill accounting of `match_against_book`: `total_filled` (`i64`) and
`total_notional` (`i128`) accumulated over the fills in walk order, with
release-mode wrapping. -/
def accum_fills (fills : List Fill) : Int × Int :=
  fills.foldl
    (fun acc f => (wrapI64 (acc.1 + f.qty), wrapI128 (acc.2 + f.qty * f.price))) (0, 0)

/-- Result of matching: quantity filled and VWAP (both 1e6-scale `i64`). -/
structure MatchResult where
  filled_qty : Int
  vwap_px : Int
  deriving DecidableEq, Repr

/-- The removal loop of `match_against_book`: remove the marked ids from
the book through `remove_order`, ignoring failures. -/
def remove_marked (b : BookArea) (ids : List Nat) : BookArea :=
  ids.foldl
    (fun bk oid =>
      match bk.remove_order oid with
      | .ok r => r.2
      | .error _ => bk) b

/-- `match_against_book` from `commit_fill.rs`: walk the contra side,
write back the updated orders, remove the fully-consumed ones (at most 19
marks, the `orders_to_remove` capacity), and report the filled quantity and
`VWAP = total_notional / total_filled` (`0` when nothing filled; the final
`as i64` cast is `wrapI64`, and Rust `i128` division truncates toward zero,
which is `Int.tdiv`). -/
def match_against_book (b : BookArea) (side : Side) (qty limit_px : Int) :
    MatchResult × BookArea :=
  let w := match_walk side limit_px (contra_side side b) qty
  let b1 : BookArea :=
    match side with
    | .Buy => { b with asks := w.1 }
    | .Sell => { b with bids := w.1 }
  let b2 := remove_marked b1 (w.2.2.take 19)
  let acc := accum_fills w.2.1
  let vwap_px := if acc.1 > 0 then wrapI64 (Int.tdiv acc.2 acc.1) else 0
  (⟨acc.1, vwap_px⟩, b2)

/-- Bid-side book order: descending price, FIFO (ascending timestamp)
within a price level. -/
def bid_le (a b : Order) : Prop :=
  b.price < a.price ∨ (a.price = b.price ∧ a.timestamp ≤ b.timestamp)

/-- Ask-side book order: ascending price, FIFO (ascending timestamp)
within a price level. -/
def ask_le (a b : Order) : Prop :=
  a.price < b.price ∨ (a.price = b.price ∧ a.timestamp ≤ b.timestamp)

/-- The priority order of the given side. -/
def side_rel (side : Side) : Order → Order → Prop :=
  match side with
  | .Buy => bid_le
  | .Sell => ask_le

/-- Both sides of the book are totally ordered by (price, creation time):
bids descending by price, asks ascending, FIFO within a price level. -/
def book_sorted (b : BookArea) : Prop :=
  b.bids.Pairwise bid_le ∧ b.asks.Pairwise ask_le

/-- An externally-visible book operation: sorted insertion or removal by
order id. -/
inductive BookOp where
  | insert (side : Side) (owner : Nat) (price qty : Int) (timestamp : Nat)
  | remove (order_id : Nat)

/-- Apply one book operation; a failed operation leaves the book as the
source leaves it (an insert still advances the id counter, a failed
removal changes nothing). -/
def apply_op (b : BookArea) : BookOp → BookArea
  | .insert side owner price qty ts => (b.insert_order side owner price qty ts).2
  | .remove oid =>
    match b.remove_order oid with
    | .ok r => r.2
    | .error _ => b

/-- A bid side at full capacity (19 resting orders), used to exercise the
capacity-rejection path. -/
def full_bids : List Order :=
  (List.range 19).map (fun i => ⟨i + 1, 0, Side.Buy, 100 - (i : Int), 1, i⟩)

/-- The priority order of the contra side walked by matching: buys walk the
asks (ordered by `ask_le`), sells walk the bids (ordered by `bid_le`). -/
def contra_rel (side : Side) : Order → Order → Prop :=
  match side with
  | .Buy => ask_le
  | .Sell => bid_le

/-- Fill priority on prices: for a buy, earlier fills are at lower-or-equal
(better) prices; for a sell, at higher-or-equal prices. -/
def fill_price_le (side : Side) (f g : Fill) : Prop :=
  match side with
  | .Buy => f.price ≤ g.price
  | .Sell => g.price ≤ f.price

/-- One step of the removal loop on a single side: remove the first order
with the given id, keep the list unchanged when the id is absent. -/
def remove_first_step (l : List Order) (oid : Nat) : List Order :=
  match remove_first l oid with
  | some r => r.2
  | none => l

/-! ## Theorems -/

theorem satI128_eq_of_bounds {x : Int} (h1 : I128MIN ≤ x) (h2 : x ≤ I128MAX) :
    satI128 x = x := by
  unfold satI128
  rw [min_eq_right h2, max_eq_right h1]

theorem satI128_zero : satI128 0 = 0 := by
  apply satI128_eq_of_bounds
  · norm_num [I128MIN]
  · norm_num [I128MAX]

theorem I128MIN_le_neg_I128MAX : I128MIN ≤ -I128MAX := by
  norm_num [I128MIN, I128MAX]

theorem sub_i128_self (a : Int) : sub_i128 a a = 0 := by
  unfold sub_i128
  rw [sub_self]
  exact satI128_zero

theorem apply_funding_of_eq (p : Position) (m : MarketFunding)
    (h : sub_i128 m.cumulative_funding_index p.funding_index_offset = 0) :
    apply_funding p m = p := by
  rw [apply_funding, if_pos h]

theorem apply_funding_of_ne (p : Position) (m : MarketFunding)
    (h : ¬ sub_i128 m.cumulative_funding_index p.funding_index_offset = 0) :
    apply_funding p m =
      { p with
          realized_pnl := add_i128 p.realized_pnl
            (mul_i128 p.base_size
              (sub_i128 m.cumulative_funding_index p.funding_index_offset)),
          funding_index_offset := m.cumulative_funding_index } := by
  rw [apply_funding, if_neg h]

/-- **C8.** Applying funding twice under an unchanged market cumulative
funding index leaves the position (realized PnL and funding offset) exactly
as applying it once: `apply_funding (apply_funding p m) m = apply_funding p m`. -/
theorem apply_funding_idempotent (p : Position) (m : MarketFunding) :
    apply_funding (apply_funding p m) m = apply_funding p m := by
  by_cases h : sub_i128 m.cumulative_funding_index p.funding_index_offset = 0
  · rw [apply_funding_of_eq p m h, apply_funding_of_eq p m h]
  · rw [apply_funding_of_ne p m h]
    exact apply_funding_of_eq _ m (sub_i128_self m.cumulative_funding_index)

/-- **C2 counterexample.** Two positions with exactly opposite base sizes
(`2` and `-2`), equal offsets `0` and zero PnL, under the same market index
`2^126`: the long's payment saturates at `i128::MAX` while the short's
payment `-2^127` is representable, so the two realized-PnL changes sum to
`-1`, not `0`. -/
theorem funding_pair_changes_nonzero_cex :
    ¬ (((apply_funding ⟨2, 0, 0⟩ ⟨2 ^ 126⟩).realized_pnl - (0 : Int)) +
       ((apply_funding ⟨-2, 0, 0⟩ ⟨2 ^ 126⟩).realized_pnl - (0 : Int)) = 0) := by
  decide

/-- **C2 (amended).** For two same-instrument positions with exactly opposite
base sizes `s` and `-s` and equal funding-index offsets, applying funding to
both under the same market index changes their realized PnLs by amounts that
sum to exactly zero, provided no saturation occurs: the funding payment
`s * delta` has absolute value at most `i128::MAX` and both updated PnLs
stay in the `i128` range. -/
theorem funding_pair_conservation (s a b off idx : Int)
    (hp : -I128MAX ≤ s * sub_i128 idx off ∧ s * sub_i128 idx off ≤ I128MAX)
    (ha : I128MIN ≤ a + s * sub_i128 idx off ∧ a + s * sub_i128 idx off ≤ I128MAX)
    (hb : I128MIN ≤ b - s * sub_i128 idx off ∧ b - s * sub_i128 idx off ≤ I128MAX) :
    ((apply_funding ⟨s, a, off⟩ ⟨idx⟩).realized_pnl - a) +
      ((apply_funding ⟨-s, b, off⟩ ⟨idx⟩).realized_pnl - b) = 0 := by
  by_cases h : sub_i128 idx off = 0
  · have e1 : apply_funding ⟨s, a, off⟩ ⟨idx⟩ = ⟨s, a, off⟩ :=
      apply_funding_of_eq _ _ h
    have e2 : apply_funding ⟨-s, b, off⟩ ⟨idx⟩ = ⟨-s, b, off⟩ :=
      apply_funding_of_eq _ _ h
    rw [e1, e2]
    simp
  · set d := sub_i128 idx off with hd
    have hmin : I128MIN ≤ s * d := I128MIN_le_neg_I128MAX.trans hp.1
    have hm1 : mul_i128 s d = s * d := satI128_eq_of_bounds hmin hp.2
    have hm2 : mul_i128 (-s) d = -(s * d) := by
      unfold mul_i128
      rw [neg_mul]
      refine satI128_eq_of_bounds ?_ ?_
      · have := hp.2
        linarith [I128MIN_le_neg_I128MAX]
      · linarith [hp.1]
    have h1 : add_i128 a (mul_i128 s d) = a + s * d := by
      rw [hm1]
      exact satI128_eq_of_bounds ha.1 ha.2
    have h2 : add_i128 b (mul_i128 (-s) d) = b - s * d := by
      rw [hm2]
      unfold add_i128
      have e : b + -(s * d) = b - s * d := by ring
      rw [e]
      exact satI128_eq_of_bounds hb.1 hb.2
    have e1 := apply_funding_of_ne ⟨s, a, off⟩ ⟨idx⟩ h
    have e2 := apply_funding_of_ne ⟨-s, b, off⟩ ⟨idx⟩ h
    rw [e1, e2]
    simp only
    rw [← hd, h1, h2]
    ring

/-- Witness for C2 (amended): concrete positions `(3, 5, 0)` and `(-3, 7, 0)`
under market index `10`. -/
theorem funding_pair_conservation_witness :
    ((apply_funding ⟨3, 5, 0⟩ ⟨10⟩).realized_pnl - 5) +
      ((apply_funding ⟨-3, 7, 0⟩ ⟨10⟩).realized_pnl - 7) = 0 := by
  exact funding_pair_conservation 3 5 7 0 10 (by decide) (by decide) (by decide)

theorem net_exposure_go_sum (es : List Exposure) :
    ∀ (acc n : Int), net_exposure_go acc es = .ok n →
      n = acc + (es.map (fun e => e.exposure)).sum := by
  induction es with
  | nil =>
    intro acc n h
    simp only [net_exposure_go] at h
    cases h
    simp
  | cons e rest ih =>
    intro acc n h
    simp only [net_exposure_go] at h
    unfold checkedAddI128 at h
    by_cases hb : I128MIN ≤ acc + e.exposure ∧ acc + e.exposure ≤ I128MAX
    · rw [if_pos hb] at h
      have := ih (acc + e.exposure) n h
      simp only [List.map_cons, List.sum_cons]
      rw [this]
      ring
    · rw [if_neg hb] at h
      cases h

/-- **C1.** Initial margin is computed on the net (signed sum) exposure, not
the gross: whenever the checked summation in `net_exposure_verified`
succeeds, its result is the exact signed sum of the per-venue exposures; a
zero net exposure yields exactly zero initial margin regardless of gross
size; and a nonzero net exposure (absent `u128` overflow) yields exactly
`|net| * price * imr_bps / 10_000_000_000`, the spec formula
`|net| × price × imr_bps / 10000` under the implementation's `1e6`
fixed-point quantity scaling. -/
theorem margin_on_net_exposure_spec (es : List Exposure) (n : Int)
    (price imr : Nat) (hn : net_exposure_verified es = .ok n) :
    n = (es.map (fun e => e.exposure)).sum ∧
    (n = 0 → margin_on_net_verified n price imr = .ok 0) ∧
    (n ≠ 0 → n.natAbs * price ≤ U128MAX → n.natAbs * price * imr ≤ U128MAX →
      margin_on_net_verified n price imr =
        .ok (n.natAbs * price * imr / 10000000000)) := by
  refine ⟨?_, ?_, ?_⟩
  · have := net_exposure_go_sum es 0 n hn
    simpa using this
  · intro h0
    simp [margin_on_net_verified, h0]
  · intro hne h1 h2
    simp only [margin_on_net_verified, checkedMulU128, if_neg hne, if_pos h1, if_pos h2]

/-- Witness for C1: the offsetting two-venue portfolio (long 100 on venue 0,
short 100 on venue 1) nets to zero and carries zero margin, while a lone
1_000_000 exposure at price 50_000_000 and 1000 bps carries margin
5_000_000. -/
theorem margin_on_net_exposure_spec_witness :
    margin_on_net_verified 0 50000000 1000 = .ok 0 ∧
    margin_on_net_verified 1000000 50000000 1000 = .ok 5000000 := by
  constructor
  · have h := margin_on_net_exposure_spec
      [⟨0, 0, 100⟩, ⟨1, 0, -100⟩] 0 50000000 1000 (by rfl)
    exact h.2.1 rfl
  · have h := margin_on_net_exposure_spec
      [⟨0, 0, 1000000⟩] 1000000 50000000 1000 (by rfl)
    have e := h.2.2 (by decide) (by decide) (by decide)
    rw [e]
    norm_num

theorem on_touch_zero_vested (s : State) (acc : Account)
    (h : vested_positive_pnl acc = 0) :
    (on_touch s acc).1 = 0 ∧
    (on_touch s acc).2.2.fee_accrued = acc.fee_accrued ∧
    (on_touch s acc).2.2.fee_index_user = s.fee_index ∧
    (on_touch s acc).2.2.pnl_ledger = acc.pnl_ledger := by
  unfold on_touch
  rw [h]
  by_cases hsnap : (0 : Nat) ≠ acc.vested_pos_snapshot
  · by_cases hgt : (0 : Nat) > acc.vested_pos_snapshot
    · exact absurd hgt (by omega)
    · simp [hsnap, hgt]
  · simp [hsnap]

/-- **C3.** `on_fees` uses `cover = min(fees, loss_accum)` to offset losses
first; the remainder (plus carried fees) is folded into the global fee
index only when the tracked sum of vested positive profit is positive, and
is carried forward otherwise; and `on_touch` credits zero fees to any
account whose vested positive PnL is non-positive (i.e. zero, as it is an
unsigned quantity). -/
theorem fee_distribution_spec (s : State) (fees : Nat) (acc : Account) :
    ((on_fees s fees).1.1 = min fees s.loss_accum) ∧
    ((on_fees s fees).2.loss_accum = s.loss_accum - min fees s.loss_accum) ∧
    (0 < fees - s.loss_accum → 0 < s.sum_vested_pos_pnl →
      (on_fees s fees).2.fee_index =
        add_u128 s.fee_index
          (div_u128 (mul_u128 (add_u128 (fees - s.loss_accum) s.fee_carry) FEE_SCALE)
            s.sum_vested_pos_pnl) ∧
      (on_fees s fees).2.fee_carry = 0) ∧
    (0 < fees - s.loss_accum → s.sum_vested_pos_pnl = 0 →
      (on_fees s fees).2.fee_index = s.fee_index ∧
      (on_fees s fees).2.fee_carry = add_u128 (fees - s.loss_accum) s.fee_carry) ∧
    (vested_positive_pnl acc = 0 →
      (on_touch s acc).1 = 0 ∧ (on_touch s acc).2.2.fee_accrued = acc.fee_accrued) := by
  have hcover : (if fees > s.loss_accum then s.loss_accum else fees) = min fees s.loss_accum := by
    by_cases h : fees > s.loss_accum
    · rw [if_pos h, min_eq_right (le_of_lt h)]
    · rw [if_neg h, min_eq_left (by omega)]
  have hdist : sub_u128 fees (min fees s.loss_accum) = fees - s.loss_accum := by
    unfold sub_u128
    omega
  refine ⟨?_, ?_, ?_, ?_, ?_⟩
  · unfold on_fees
    by_cases h0 : fees = 0
    · simp [h0]
    · rw [if_neg h0]
      simp only [hcover]
      by_cases hd : sub_u128 fees (min fees s.loss_accum) > 0
      · rw [if_pos hd]
        by_cases hs : s.sum_vested_pos_pnl > 0
        · rw [if_pos hs]
        · rw [if_neg hs]
      · rw [if_neg hd]
  · unfold on_fees
    by_cases h0 : fees = 0
    · simp [h0]
    · rw [if_neg h0]
      simp only [hcover]
      by_cases hd : sub_u128 fees (min fees s.loss_accum) > 0
      · rw [if_pos hd]
        by_cases hs : s.sum_vested_pos_pnl > 0
        · rw [if_pos hs]
          simp [sub_u128]
        · rw [if_neg hs]
          simp [sub_u128]
      · rw [if_neg hd]
        simp [sub_u128]
  · intro hgt hs
    have h0 : fees ≠ 0 := by omega
    unfold on_fees
    rw [if_neg h0]
    simp only [hcover, hdist]
    rw [if_pos hgt, if_pos hs]
    exact ⟨rfl, rfl⟩
  · intro hgt hs
    have h0 : fees ≠ 0 := by omega
    unfold on_fees
    rw [if_neg h0]
    simp only [hcover, hdist]
    rw [if_pos hgt, if_neg (by omega : ¬ s.sum_vested_pos_pnl > 0)]
    exact ⟨rfl, rfl⟩
  · intro hv
    have h := on_touch_zero_vested s acc hv
    exact ⟨h.1, h.2.1⟩

/-- Witness for C3: loss accumulator 100, incoming fees 600, vested sum
1e6 — cover is 100, the remaining 500 raises the fee index to 500 (the
in-source `test_on_fees_with_distribution` scenario); an account with
negative PnL is credited nothing. -/
theorem fee_distribution_spec_witness :
    (on_fees ⟨100, 0, 1000000, 0⟩ 600).1.1 = 100 ∧
    (on_fees ⟨100, 0, 1000000, 0⟩ 600).2.loss_accum = 0 ∧
    (on_fees ⟨100, 0, 1000000, 0⟩ 600).2.fee_index = 500 ∧
    (on_touch ⟨100, 0, 1000000, 0⟩ ⟨0, -500, 0, 0, 0⟩).1 = 0 := by
  have h := fee_distribution_spec ⟨100, 0, 1000000, 0⟩ 600 ⟨0, -500, 0, 0, 0⟩
  refine ⟨?_, ?_, ?_, ?_⟩
  · rw [h.1]
    decide
  · rw [h.2.1]
    decide
  · rw [(h.2.2.1 (by decide) (by decide)).1]
    decide
  · exact (h.2.2.2.2 (by decide)).1

theorem on_touch_credited (s : State) (acc : Account) :
    (on_touch s acc).1 =
      if vested_positive_pnl acc > 0 then
        div_u128 (mul_u128 (sub_u128 s.fee_index acc.fee_index_user)
          (vested_positive_pnl acc)) FEE_SCALE
      else 0 := by
  unfold on_touch
  simp only [apply_ite (fun x : Nat × State × Account => x.1), ite_self,
    apply_ite (fun x : Nat × Account => x.1)]
  by_cases hv : vested_positive_pnl acc > 0
  · rw [if_pos hv, if_pos hv]
    by_cases hdelta : sub_u128 s.fee_index acc.fee_index_user > 0
    · rw [if_pos hdelta]
      by_cases hcr : div_u128 (mul_u128 (sub_u128 s.fee_index acc.fee_index_user)
          (vested_positive_pnl acc)) FEE_SCALE > 0
      · rw [if_pos hcr]
      · rw [if_neg hcr]
        omega
    · rw [if_neg hdelta]
      have hz : sub_u128 s.fee_index acc.fee_index_user = 0 := by omega
      rw [hz]
      simp [mul_u128, div_u128]
  · rw [if_neg hv, if_neg hv]

/-- **C10.** Touching an account whose vested positive PnL is zero credits
no fees but still overwrites its fee-index snapshot with the current global
fee index; consequently, for any later state and any positive PnL the
account subsequently acquires, the next touch credits exactly
`(later_index - index_at_first_touch) * vested / FEE_SCALE` — the index
growth that happened before the first touch (while the account had no
positive vested profit) is never credited. -/
theorem on_touch_zero_vested_forfeits_index (s : State) (acc : Account)
    (h : vested_positive_pnl acc = 0) :
    (on_touch s acc).1 = 0 ∧
    (on_touch s acc).2.2.fee_accrued = acc.fee_accrued ∧
    (on_touch s acc).2.2.fee_index_user = s.fee_index ∧
    (∀ (s2 : State) (q : Int), 0 < q →
      (on_touch s2 { (on_touch s acc).2.2 with pnl_ledger := q }).1 =
        div_u128 (mul_u128 (sub_u128 s2.fee_index s.fee_index) q.toNat) FEE_SCALE) := by
  have h1 := on_touch_zero_vested s acc h
  refine ⟨h1.1, h1.2.1, h1.2.2.1, ?_⟩
  intro s2 q hq
  have hidx : ({ (on_touch s acc).2.2 with pnl_ledger := q } : Account).fee_index_user
      = s.fee_index := h1.2.2.1
  have hvq : vested_positive_pnl { (on_touch s acc).2.2 with pnl_ledger := q } = q.toNat := rfl
  rw [on_touch_credited, hvq, hidx, if_pos (by omega : q.toNat > 0)]

/-- Witness for C10: an account with negative PnL touched at global fee
index 1000 is credited nothing and its snapshot jumps to 1000; after its
PnL turns to `2e6` and the index grows to 1500, the next touch credits
exactly `(1500 - 1000) * 2e6 / 1e6 = 1000`. -/
theorem on_touch_zero_vested_forfeits_index_witness :
    (on_touch ⟨0, 1000, 0, 0⟩ ⟨0, -500, 0, 0, 0⟩).1 = 0 ∧
    (on_touch ⟨0, 1000, 0, 0⟩ ⟨0, -500, 0, 0, 0⟩).2.2.fee_index_user = 1000 ∧
    (on_touch ⟨0, 1500, 0, 0⟩
      { (on_touch ⟨0, 1000, 0, 0⟩ ⟨0, -500, 0, 0, 0⟩).2.2 with pnl_ledger := 2000000 }).1
      = 1000 := by
  have h := on_touch_zero_vested_forfeits_index ⟨0, 1000, 0, 0⟩ ⟨0, -500, 0, 0, 0⟩ (by decide)
  refine ⟨h.1, h.2.2.1, ?_⟩
  have e := h.2.2.2 ⟨0, 1500, 0, 0⟩ 2000000 (by decide)
  rw [e]
  decide

/-- **C4 counterexample.** From vault {balance 10000, pledged 0} and an
empty escrow (where `pledged = Σ balance` holds), minting a capability for
1000 yields pledged 1000 = balance 1000 — but a subsequent completed
`cap_debit` of 400 leaves the escrow at 600 with the vault still pledging
1000: the invariant fails right after a completed debit. -/
theorem vault_pledged_escrow_sum_cex :
    mint_cap_for_reserve 1 2 3 1000 100 60000 ⟨10000, 0⟩ ⟨0⟩ =
      .ok (Cap.new 1 2 3 1000 100 60000, ⟨10000, 1000⟩, ⟨1000⟩) ∧
    (cap_debit (Cap.new 1 2 3 1000 100 60000) ⟨1000⟩ 400 1 2 3 100).1 = .ok () ∧
    ¬ ((⟨10000, 1000⟩ : Vault).total_pledged =
        (cap_debit (Cap.new 1 2 3 1000 100 60000) ⟨1000⟩ 400 1 2 3 100).2.2.balance) := by
  refine ⟨rfl, rfl, ?_⟩
  decide

/-- **C4 (amended).** `mint_cap_for_reserve` moves the pledged amount in
lockstep (vault pledged total and escrow balance each grow by `max_charge`),
and `cap_ops::burn_cap_and_refund` debits escrow and unpledges vault by the
same unused amount, so both preserve `vault.pledged = Σ escrow.balance`;
but a completed `cap_debit` decreases the escrow balance by the debited
amount without touching any vault, and `multi_commit::burn_cap_and_refund`
credits the escrow without touching any vault, so the invariant holds at
quiescent points only until the first debit — after it the vault's pledged
total exceeds the escrow sum by exactly the total amount debited. -/
theorem cap_lifecycle_pledged_balance (v : Vault) (e : Escrow) (cap : Cap)
    (user slab mint max_charge current_ts ttl_ms amount : Nat) :
    (∀ cp v1 e1,
      mint_cap_for_reserve user slab mint max_charge current_ts ttl_ms v e =
        .ok (cp, v1, e1) →
      v.total_pledged = e.balance → v1.total_pledged = e1.balance) ∧
    (∀ cp e1 v1,
      burn_cap_and_refund cap e v = .ok (cp, e1, v1) →
      v.total_pledged = e.balance → v1.total_pledged = e1.balance) ∧
    ((cap_debit cap e amount user slab mint current_ts).1 = .ok () →
      amount ≤ e.balance ∧
      (cap_debit cap e amount user slab mint current_ts).2.2.balance =
        e.balance - amount) ∧
    (cap.burned = false → 0 < cap.remaining →
      (burn_cap_and_refund_mc cap e).2.balance = add_u128 e.balance cap.remaining) := by
  refine ⟨?_, ?_, ?_, ?_⟩
  · intro cp v1 e1 h heq
    unfold mint_cap_for_reserve Vault.pledge at h
    by_cases hv : v.available < max_charge
    · rw [if_pos hv] at h
      exact absurd h (by simp)
    · rw [if_neg hv] at h
      simp only [Except.ok.injEq, Prod.mk.injEq] at h
      rw [← h.2.1, ← h.2.2]
      unfold Escrow.credit
      simp only [heq]
  · intro cp e1 v1 h heq
    unfold burn_cap_and_refund Escrow.debit at h
    by_cases hc : cap.remaining > 0 ∧ cap.remaining ≤ e.balance
    · rw [if_pos hc] at h
      rw [if_neg (by omega : ¬ e.balance < cap.remaining)] at h
      simp only [Except.ok.injEq, Prod.mk.injEq] at h
      rw [← h.2.1, ← h.2.2]
      unfold Vault.unpledge sub_u128
      simp only [heq]
    · rw [if_neg hc] at h
      simp only [Except.ok.injEq, Prod.mk.injEq] at h
      rw [← h.2.1, ← h.2.2]
      exact heq
  · intro h
    unfold cap_debit at h ⊢
    cases hcd : Cap.debit cap amount user slab mint current_ts with
    | error err =>
      rw [hcd] at h
      cases err <;> simp at h
    | ok cap1 =>
      rw [hcd] at h
      cases hed : Escrow.debit e amount with
      | error s =>
        rw [hed] at h
        simp at h
      | ok e1 =>
        unfold Escrow.debit at hed
        by_cases hb : e.balance < amount
        · rw [if_pos hb] at hed
          exact absurd hed (by simp)
        · rw [if_neg hb] at hed
          simp only [Except.ok.injEq] at hed
          refine ⟨by omega, ?_⟩
          show e1.balance = e.balance - amount
          rw [← hed]
  · intro hburn hrem
    unfold burn_cap_and_refund_mc
    rw [if_neg (by simp [hburn]), if_pos hrem]
    rfl

/-- Witness for C4 (amended): a fresh mint of 1000 keeps pledged = balance
(1000 each); a completed debit of 400 from a 1000 escrow leaves 600; the
multi-commit refund of an unburned cap with 600 remaining credits the
escrow back to 600. -/
theorem cap_lifecycle_pledged_balance_witness :
    ((⟨10000, 1000⟩ : Vault).total_pledged = (⟨1000⟩ : Escrow).balance) ∧
    (400 ≤ 1000 ∧
      (cap_debit (Cap.new 1 2 3 1000 100 60000) ⟨1000⟩ 400 1 2 3 100).2.2.balance =
        1000 - 400) ∧
    (burn_cap_and_refund_mc ⟨1, 2, 3, 1000, 600, 61000, false⟩ ⟨0⟩).2.balance =
      add_u128 0 600 := by
  refine ⟨?_, ?_, ?_⟩
  · exact (cap_lifecycle_pledged_balance ⟨10000, 0⟩ ⟨0⟩ (Cap.new 1 2 3 1000 100 60000)
      1 2 3 1000 100 60000 400).1 (Cap.new 1 2 3 1000 100 60000) ⟨10000, 1000⟩ ⟨1000⟩
      rfl rfl
  · exact (cap_lifecycle_pledged_balance ⟨10000, 0⟩ ⟨1000⟩ (Cap.new 1 2 3 1000 100 60000)
      1 2 3 1000 100 60000 400).2.2.1 rfl
  · exact (cap_lifecycle_pledged_balance ⟨10000, 0⟩ ⟨0⟩ ⟨1, 2, 3, 1000, 600, 61000, false⟩
      1 2 3 1000 100 60000 400).2.2.2 rfl (by decide)

/-- **C9 counterexample.** With the order-id counter at `u64::MAX`,
inserting into an empty book succeeds and the counter wraps around to `0` —
the wrapping `next_order_id` update neither saturates nor aborts with an
error. -/
theorem next_order_id_wraps_cex :
    (BookArea.insert_order ⟨2 ^ 64 - 1, [], []⟩ .Buy 0 100 1 0).1 = .ok (2 ^ 64 - 1) ∧
    (BookArea.insert_order ⟨2 ^ 64 - 1, [], []⟩ .Buy 0 100 1 0).2.next_order_id = 0 := by
  constructor
  · rfl
  · rfl

/-- **C9 (amended).** The order-book's order-id counter, a core state
counter, is updated by wrapping arithmetic: every `insert_order` —
succeeding or failing — advances `next_order_id` by `wrapping_add(1)`,
i.e. modulo `2^64`, wrapping to `0` at `u64::MAX` instead of aborting the
operation with an error. -/
theorem insert_order_advances_id_mod (b : BookArea) (side : Side) (owner : Nat)
    (price qty : Int) (ts : Nat) :
    (b.insert_order side owner price qty ts).2.next_order_id =
      (b.next_order_id + 1) % 2 ^ 64 := by
  unfold BookArea.insert_order BookArea.take_next_order_id
  cases side
  · dsimp only
    split
    · rfl
    · rfl
  · dsimp only
    split
    · rfl
    · rfl

/-- **C7 counterexample.** Inserting into a book whose bid side already
holds 19 orders is rejected with "Order book full", yet the operation does
not leave the state as it was: the order-id counter has been advanced. -/
theorem insert_order_full_mutates_cex :
    (BookArea.insert_order ⟨20, full_bids, []⟩ .Buy 7 50 1 999).1 =
      .error "Order book full" ∧
    (BookArea.insert_order ⟨20, full_bids, []⟩ .Buy 7 50 1 999).2 ≠
      (⟨20, full_bids, []⟩ : BookArea) := by
  constructor
  · rfl
  · intro h
    have hc := congrArg BookArea.next_order_id h
    revert hc
    decide

/-- **C7 (amended).** Validation and economic rejections are synchronous
and leave the domain state (book contents, capability, escrow) unchanged,
with two exceptions visible in the cited sources: a capacity-rejected
`insert_order` still advances the internal order-id counter (by the usual
wrapping increment) while leaving bids and asks untouched, and a
`cap_debit` that fails on the escrow debit (after the capability checks
passed) leaves the capability already debited; `cap_debit` failures at the
capability checks themselves (expired / out-of-scope / exhausted) mutate
nothing. -/
theorem error_paths_state_effects (b : BookArea) (side : Side) (owner : Nat)
    (price qty : Int) (ts : Nat) (cap : Cap) (e : Escrow)
    (amount user slab mint current_ts : Nat) :
    ((side_orders side b).length ≥ 19 →
      (b.insert_order side owner price qty ts).1 = .error "Order book full" ∧
      (b.insert_order side owner price qty ts).2.bids = b.bids ∧
      (b.insert_order side owner price qty ts).2.asks = b.asks ∧
      (b.insert_order side owner price qty ts).2.next_order_id =
        (b.next_order_id + 1) % 2 ^ 64) ∧
    (∀ err, Cap.debit cap amount user slab mint current_ts = .error err →
      (cap_debit cap e amount user slab mint current_ts).2.1 = cap ∧
      (cap_debit cap e amount user slab mint current_ts).2.2 = e ∧
      ∃ msg, (cap_debit cap e amount user slab mint current_ts).1 = .error msg) ∧
    (∀ cap1, Cap.debit cap amount user slab mint current_ts = .ok cap1 →
      e.balance < amount →
      (cap_debit cap e amount user slab mint current_ts).1 = .error "InsufficientFunds" ∧
      (cap_debit cap e amount user slab mint current_ts).2.1 = cap1 ∧
      cap1.remaining = cap.remaining - amount) := by
  refine ⟨?_, ?_, ?_⟩
  · intro hfull
    unfold BookArea.insert_order BookArea.take_next_order_id
    cases side
    · dsimp only
      rw [if_pos (by exact hfull)]
      exact ⟨rfl, rfl, rfl, rfl⟩
    · dsimp only
      rw [if_pos (by exact hfull)]
      exact ⟨rfl, rfl, rfl, rfl⟩
  · intro err h
    unfold cap_debit
    rw [h]
    cases err
    · exact ⟨rfl, rfl, "CapabilityExpired", rfl⟩
    · exact ⟨rfl, rfl, "InvalidScope", rfl⟩
    · exact ⟨rfl, rfl, "InsufficientFunds", rfl⟩
  · intro cap1 h hbal
    unfold cap_debit
    rw [h]
    unfold Escrow.debit
    rw [if_pos hbal]
    refine ⟨rfl, rfl, ?_⟩
    unfold Cap.debit at h
    by_cases h1 : cap.burned ∨ cap.expiry_ts < current_ts
    · rw [if_pos h1] at h
      exact absurd h (by simp)
    · rw [if_neg h1] at h
      by_cases h2 : user ≠ cap.scope_user ∨ slab ≠ cap.scope_slab ∨ mint ≠ cap.scope_mint
      · rw [if_pos h2] at h
        exact absurd h (by simp)
      · rw [if_neg h2] at h
        by_cases h3 : cap.remaining < amount
        · rw [if_pos h3] at h
          exact absurd h (by simp)
        · rw [if_neg h3] at h
          simp only [Except.ok.injEq] at h
          rw [← h]

/-- Witness for C7 (amended): the full-book rejection on a 19-bid book at
counter 20 reports the error with the counter at 21 and sides untouched;
a debit on an expired capability mutates neither cap nor escrow; a debit of
400 against a 100-balance escrow fails after the capability (1000
remaining) has dropped to 600. -/
theorem error_paths_state_effects_witness :
    ((BookArea.insert_order ⟨20, full_bids, []⟩ .Buy 7 50 1 999).1 =
        .error "Order book full" ∧
      (BookArea.insert_order ⟨20, full_bids, []⟩ .Buy 7 50 1 999).2.next_order_id = 21) ∧
    ((cap_debit ⟨1, 2, 3, 1000, 1000, 500, false⟩ ⟨1000⟩ 400 1 2 3 900).2.1 =
        (⟨1, 2, 3, 1000, 1000, 500, false⟩ : Cap) ∧
      (cap_debit ⟨1, 2, 3, 1000, 1000, 500, false⟩ ⟨1000⟩ 400 1 2 3 900).2.2 =
        (⟨1000⟩ : Escrow)) ∧
    ((cap_debit ⟨1, 2, 3, 1000, 1000, 5000, false⟩ ⟨100⟩ 400 1 2 3 900).1 =
        .error "InsufficientFunds" ∧
      (cap_debit ⟨1, 2, 3, 1000, 1000, 5000, false⟩ ⟨100⟩ 400 1 2 3 900).2.1.remaining = 600) := by
  refine ⟨⟨?_, ?_⟩, ⟨?_, ?_⟩, ⟨?_, ?_⟩⟩
  · exact (error_paths_state_effects ⟨20, full_bids, []⟩ .Buy 7 50 1 999
      ⟨1, 2, 3, 1000, 1000, 500, false⟩ ⟨1000⟩ 400 1 2 3 900).1 (by decide) |>.1
  · have h := (error_paths_state_effects ⟨20, full_bids, []⟩ .Buy 7 50 1 999
      ⟨1, 2, 3, 1000, 1000, 500, false⟩ ⟨1000⟩ 400 1 2 3 900).1 (by decide)
    rw [h.2.2.2]
    decide
  · exact ((error_paths_state_effects ⟨20, full_bids, []⟩ .Buy 7 50 1 999
      ⟨1, 2, 3, 1000, 1000, 500, false⟩ ⟨1000⟩ 400 1 2 3 900).2.1 .Expired rfl).1
  · exact ((error_paths_state_effects ⟨20, full_bids, []⟩ .Buy 7 50 1 999
      ⟨1, 2, 3, 1000, 1000, 500, false⟩ ⟨1000⟩ 400 1 2 3 900).2.1 .Expired rfl).2.1
  · exact ((error_paths_state_effects ⟨20, full_bids, []⟩ .Buy 7 50 1 999
      ⟨1, 2, 3, 1000, 1000, 5000, false⟩ ⟨100⟩ 400 1 2 3 900).2.2
      ⟨1, 2, 3, 1000, 600, 5000, false⟩ rfl (by decide)).1
  · have h := ((error_paths_state_effects ⟨20, full_bids, []⟩ .Buy 7 50 1 999
      ⟨1, 2, 3, 1000, 1000, 5000, false⟩ ⟨100⟩ 400 1 2 3 900).2.2
      ⟨1, 2, 3, 1000, 600, 5000, false⟩ rfl (by decide)).2
    rw [h.1, h.2]
    decide

theorem bid_le_trans {a b c : Order} (h1 : bid_le a b) (h2 : bid_le b c) : bid_le a c := by
  unfold bid_le at *
  omega

theorem ask_le_trans {a b c : Order} (h1 : ask_le a b) (h2 : ask_le b c) : ask_le a c := by
  unfold ask_le at *
  omega

theorem side_rel_trans (side : Side) {a b c : Order}
    (h1 : side_rel side a b) (h2 : side_rel side b c) : side_rel side a c := by
  cases side
  · exact bid_le_trans h1 h2
  · exact ask_le_trans h1 h2

theorem insert_before_eq_true {side : Side} {o x : Order}
    (h : insert_before side o x = true) : side_rel side o x := by
  cases side <;> simp [insert_before, side_rel, bid_le, ask_le] at * <;> omega

theorem insert_before_eq_false {side : Side} {o x : Order}
    (h : insert_before side o x = false) : side_rel side x o := by
  cases side <;> simp [insert_before, side_rel, bid_le, ask_le] at * <;> omega

theorem mem_insert_sorted {side : Side} {o : Order} :
    ∀ {l : List Order} {x : Order}, x ∈ insert_sorted side o l → x = o ∨ x ∈ l := by
  intro l
  induction l with
  | nil =>
    intro x hx
    simp only [insert_sorted, List.mem_singleton] at hx
    exact Or.inl hx
  | cons y ys ih =>
    intro x hx
    simp only [insert_sorted] at hx
    by_cases hb : insert_before side o y = true
    · rw [if_pos hb] at hx
      rcases List.mem_cons.mp hx with rfl | h2
      · exact Or.inl rfl
      · exact Or.inr h2
    · rw [if_neg hb] at hx
      rcases List.mem_cons.mp hx with rfl | h2
      · exact Or.inr (List.mem_cons_self _ _)
      · rcases ih h2 with h3 | h3
        · exact Or.inl h3
        · exact Or.inr (List.mem_cons_of_mem _ h3)

theorem insert_sorted_pairwise (side : Side) (o : Order) :
    ∀ l : List Order, l.Pairwise (side_rel side) →
      (insert_sorted side o l).Pairwise (side_rel side) := by
  intro l
  induction l with
  | nil =>
    intro _
    simp [insert_sorted]
  | cons x xs ih =>
    intro hp
    rw [List.pairwise_cons] at hp
    obtain ⟨hx, hxs⟩ := hp
    simp only [insert_sorted]
    by_cases hb : insert_before side o x = true
    · rw [if_pos hb]
      have hox := insert_before_eq_true hb
      refine List.Pairwise.cons ?_ (List.Pairwise.cons hx hxs)
      intro y hy
      rcases List.mem_cons.mp hy with rfl | h2
      · exact hox
      · exact side_rel_trans side hox (hx y h2)
    · rw [if_neg hb]
      have hxo := insert_before_eq_false (Bool.eq_false_iff.mpr hb)
      refine List.Pairwise.cons ?_ (ih hxs)
      intro y hy
      rcases mem_insert_sorted hy with rfl | h2
      · exact hxo
      · exact hx y h2

theorem remove_first_sublist :
    ∀ (l : List Order) (oid : Nat) (o : Order) (l1 : List Order),
      remove_first l oid = some (o, l1) → l1.Sublist l := by
  intro l
  induction l with
  | nil =>
    intro oid o l1 h
    simp [remove_first] at h
  | cons x xs ih =>
    intro oid o l1 h
    simp only [remove_first] at h
    by_cases hx : x.order_id = oid
    · rw [if_pos hx] at h
      simp only [Option.some.injEq, Prod.mk.injEq] at h
      rw [← h.2]
      exact List.sublist_cons_self x xs
    · rw [if_neg hx] at h
      cases hr : remove_first xs oid with
      | none =>
        rw [hr] at h
        simp at h
      | some p =>
        rw [hr] at h
        simp only [Option.some.injEq, Prod.mk.injEq] at h
        rw [← h.2]
        exact (ih oid p.1 p.2 (by rw [hr])).cons₂ x

theorem insert_order_sorted (b : BookArea) (side : Side) (owner : Nat)
    (price qty : Int) (ts : Nat) (h : book_sorted b) :
    book_sorted (b.insert_order side owner price qty ts).2 := by
  unfold BookArea.insert_order BookArea.take_next_order_id
  cases side
  · dsimp only
    split
    · exact h
    · exact ⟨insert_sorted_pairwise .Buy _ b.bids h.1, h.2⟩
  · dsimp only
    split
    · exact h
    · exact ⟨h.1, insert_sorted_pairwise .Sell _ b.asks h.2⟩

theorem remove_order_sorted (b : BookArea) (oid : Nat) (h : book_sorted b) :
    ∀ r, b.remove_order oid = .ok r → book_sorted r.2 := by
  intro r hr
  unfold BookArea.remove_order at hr
  cases h1 : remove_first b.bids oid with
  | some p =>
    rw [h1] at hr
    simp only [Except.ok.injEq] at hr
    rw [← hr]
    exact ⟨h.1.sublist (remove_first_sublist b.bids oid p.1 p.2 (by rw [h1])), h.2⟩
  | none =>
    rw [h1] at hr
    cases h2 : remove_first b.asks oid with
    | some p =>
      rw [h2] at hr
      simp only [Except.ok.injEq] at hr
      rw [← hr]
      exact ⟨h.1, h.2.sublist (remove_first_sublist b.asks oid p.1 p.2 (by rw [h2]))⟩
    | none =>
      rw [h2] at hr
      exact absurd hr (by simp)

theorem apply_op_sorted (b : BookArea) (op : BookOp) (h : book_sorted b) :
    book_sorted (apply_op b op) := by
  cases op with
  | insert side owner price qty ts => exact insert_order_sorted b side owner price qty ts h
  | remove oid =>
    simp only [apply_op]
    cases hr : b.remove_order oid with
    | ok r => exact remove_order_sorted b oid h r hr
    | error e => exact h

theorem match_walk_fill_mem (side : Side) (limit : Int) :
    ∀ (orders : List Order) (rem : Int) (f : Fill),
      f ∈ (match_walk side limit orders rem).2.1 →
      price_acceptable side f.price limit = true ∧
      ∃ o ∈ orders, f.price = o.price ∧ f.order_id = o.order_id := by
  intro orders
  induction orders with
  | nil =>
    intro rem f hf
    simp [match_walk] at hf
  | cons o rest ih =>
    intro rem f hf
    simp only [match_walk] at hf
    by_cases h1 : rem ≤ 0
    · rw [if_pos h1] at hf
      simp at hf
    · rw [if_neg h1] at hf
      by_cases h2 : price_acceptable side o.price limit = true
      · rw [if_neg (not_not_intro h2)] at hf
        rcases List.mem_cons.mp hf with rfl | h3
        · exact ⟨h2, o, List.mem_cons_self _ _, rfl, rfl⟩
        · obtain ⟨hpa, o1, ho1, hp, hid⟩ := ih _ f h3
          exact ⟨hpa, o1, List.mem_cons_of_mem _ ho1, hp, hid⟩
      · rw [if_pos (by simpa using h2)] at hf
        simp at hf

theorem contra_rel_price {side : Side} {a b : Order} (h : contra_rel side a b) :
    ∀ (fa fb : Fill), fa.price = a.price → fb.price = b.price → fill_price_le side fa fb := by
  intro fa fb ha hb
  cases side
  · unfold contra_rel ask_le at h
    unfold fill_price_le
    omega
  · unfold contra_rel bid_le at h
    unfold fill_price_le
    omega

theorem match_walk_fills_pairwise (side : Side) (limit : Int) :
    ∀ (orders : List Order) (rem : Int),
      orders.Pairwise (contra_rel side) →
      ((match_walk side limit orders rem).2.1).Pairwise (fill_price_le side) := by
  intro orders
  induction orders with
  | nil =>
    intro rem _
    simp [match_walk]
  | cons o rest ih =>
    intro rem hp
    rw [List.pairwise_cons] at hp
    obtain ⟨ho, hrest⟩ := hp
    simp only [match_walk]
    by_cases h1 : rem ≤ 0
    · rw [if_pos h1]
      exact List.Pairwise.nil
    · rw [if_neg h1]
      by_cases h2 : price_acceptable side o.price limit = true
      · rw [if_neg (not_not_intro h2)]
        refine List.Pairwise.cons ?_ (ih _ hrest)
        intro g hg
        obtain ⟨_, o1, ho1, hp1, _⟩ := match_walk_fill_mem side limit rest _ g hg
        exact contra_rel_price (ho o1 ho1) _ g rfl hp1
      · rw [if_pos (by simpa using h2)]
        exact List.Pairwise.nil

/-- **C6.** After any sequence of inserts and removes starting from the
empty book, each side is totally ordered by (price, creation time): bids
pairwise in descending price with FIFO (ascending timestamp) at equal
price, asks pairwise ascending with FIFO; consequently, matching any
quantity at any limit against such a book produces its fills in
best-price-first order. -/
theorem book_total_order_invariant (ops : List BookOp) (side : Side) (qty limit_px : Int) :
    book_sorted (ops.foldl apply_op BookArea.new) ∧
    ((match_walk side limit_px (contra_side side (ops.foldl apply_op BookArea.new))
        qty).2.1).Pairwise (fill_price_le side) := by
  have hs : ∀ (b : BookArea), book_sorted b → book_sorted (ops.foldl apply_op b) := by
    induction ops with
    | nil => intro b h; exact h
    | cons op rest ih =>
      intro b h
      exact ih _ (apply_op_sorted b op h)
  have hsorted : book_sorted (ops.foldl apply_op BookArea.new) :=
    hs BookArea.new ⟨List.Pairwise.nil, List.Pairwise.nil⟩
  refine ⟨hsorted, ?_⟩
  apply match_walk_fills_pairwise
  cases side
  · exact hsorted.2
  · exact hsorted.1

theorem wrapI64_eq_of_bounds {x : Int} (h1 : -(2 ^ 63) ≤ x) (h2 : x ≤ 2 ^ 63 - 1) :
    wrapI64 x = x := by
  unfold wrapI64
  rw [Int.emod_eq_of_lt (by omega) (by omega)]
  omega

theorem wrapI128_eq_of_bounds {x : Int} (h1 : -(2 ^ 127) ≤ x) (h2 : x ≤ 2 ^ 127 - 1) :
    wrapI128 x = x := by
  unfold wrapI128
  rw [Int.emod_eq_of_lt (by omega) (by omega)]
  omega

theorem match_walk_ids (side : Side) (limit : Int) :
    ∀ (orders : List Order) (rem : Int),
      ((match_walk side limit orders rem).1).map (fun o => o.order_id) =
        orders.map (fun o => o.order_id) := by
  intro orders
  induction orders with
  | nil =>
    intro rem
    simp [match_walk]
  | cons o rest ih =>
    intro rem
    simp only [match_walk]
    by_cases h1 : rem ≤ 0
    · rw [if_pos h1]
    · rw [if_neg h1]
      by_cases h2 : price_acceptable side o.price limit = true
      · rw [if_neg (not_not_intro h2)]
        simp only [List.map_cons]
        rw [ih]
      · rw [if_pos (by simpa using h2)]

theorem match_walk_fill_bounds (side : Side) (limit : Int) :
    ∀ (orders : List Order) (rem : Int),
      (∀ o ∈ orders, 0 < o.qty ∧ o.qty ≤ I64MAX ∧ 0 ≤ o.price ∧ o.price ≤ I64MAX) →
      0 ≤ rem → rem ≤ I64MAX →
      ∀ f ∈ (match_walk side limit orders rem).2.1,
        0 ≤ f.qty ∧ f.qty ≤ I64MAX ∧ 0 ≤ f.price ∧ f.price ≤ I64MAX := by
  intro orders
  induction orders with
  | nil =>
    intro rem _ _ _ f hf
    simp [match_walk] at hf
  | cons o rest ih =>
    intro rem ho hr0 hrM f hf
    have hohead := ho o (List.mem_cons_self _ _)
    simp only [match_walk] at hf
    by_cases h1 : rem ≤ 0
    · rw [if_pos h1] at hf
      simp at hf
    · rw [if_neg h1] at hf
      by_cases h2 : price_acceptable side o.price limit = true
      · rw [if_neg (not_not_intro h2)] at hf
        rcases List.mem_cons.mp hf with rfl | h3
        · refine ⟨?_, ?_, hohead.2.2.1, hohead.2.2.2⟩
          · show 0 ≤ min rem o.qty
            omega
          · show min rem o.qty ≤ I64MAX
            omega
        · have hw : wrapI64 (rem - min rem o.qty) = rem - min rem o.qty :=
            wrapI64_eq_of_bounds (by unfold I64MAX at *; omega) (by unfold I64MAX at *; omega)
          rw [hw] at h3
          exact ih (rem - min rem o.qty) (fun x hx => ho x (List.mem_cons_of_mem _ hx))
            (by omega) (by omega) f h3
      · rw [if_pos (by simpa using h2)] at hf
        simp at hf

theorem match_walk_qty_sum (side : Side) (limit : Int) :
    ∀ (orders : List Order) (rem : Int),
      (∀ o ∈ orders, 0 < o.qty) → 0 ≤ rem → rem ≤ I64MAX →
      0 ≤ (((match_walk side limit orders rem).2.1).map Fill.qty).sum ∧
      (((match_walk side limit orders rem).2.1).map Fill.qty).sum ≤ rem := by
  intro orders
  induction orders with
  | nil =>
    intro rem _ hr0 _
    simp [match_walk]
    exact hr0
  | cons o rest ih =>
    intro rem ho hr0 hrM
    have hohead := ho o (List.mem_cons_self _ _)
    simp only [match_walk]
    by_cases h1 : rem ≤ 0
    · rw [if_pos h1]
      simpa using hr0
    · rw [if_neg h1]
      by_cases h2 : price_acceptable side o.price limit = true
      · rw [if_neg (not_not_intro h2)]
        have hw : wrapI64 (rem - min rem o.qty) = rem - min rem o.qty :=
          wrapI64_eq_of_bounds (by unfold I64MAX at *; omega) (by unfold I64MAX at *; omega)
        simp only [List.map_cons, List.sum_cons]
        rw [hw]
        have key := ih (rem - min rem o.qty) (fun x hx => ho x (List.mem_cons_of_mem _ hx))
          (by omega) (by omega)
        constructor
        · have : (0 : Int) ≤ min rem o.qty := by omega
          omega
        · omega
      · rw [if_pos (by simpa using h2)]
        simpa using hr0

theorem match_walk_notional_sum (side : Side) (limit : Int) :
    ∀ (orders : List Order) (rem : Int),
      (∀ o ∈ orders, 0 < o.qty ∧ 0 ≤ o.price) → 0 ≤ rem → rem ≤ I64MAX →
      0 ≤ (((match_walk side limit orders rem).2.1).map (fun f => f.qty * f.price)).sum ∧
      (((match_walk side limit orders rem).2.1).map (fun f => f.qty * f.price)).sum ≤
        (orders.map (fun o => o.qty * o.price)).sum := by
  intro orders
  induction orders with
  | nil =>
    intro rem _ _ _
    simp [match_walk]
  | cons o rest ih =>
    intro rem ho hr0 hrM
    have hohead := ho o (List.mem_cons_self _ _)
    have hrestsum : 0 ≤ (rest.map (fun o => o.qty * o.price)).sum := by
      apply List.sum_nonneg
      intro x hx
      obtain ⟨g, hg, rfl⟩ := List.mem_map.mp hx
      have := ho g (List.mem_cons_of_mem _ hg)
      exact mul_nonneg (by omega) this.2
    have hheadnn : 0 ≤ o.qty * o.price := mul_nonneg (by omega) hohead.2
    simp only [match_walk]
    by_cases h1 : rem ≤ 0
    · rw [if_pos h1]
      simp only [List.map_cons, List.sum_cons]
      constructor
      · simp
      · simp
        omega
    · rw [if_neg h1]
      by_cases h2 : price_acceptable side o.price limit = true
      · rw [if_neg (not_not_intro h2)]
        have hw : wrapI64 (rem - min rem o.qty) = rem - min rem o.qty :=
          wrapI64_eq_of_bounds (by unfold I64MAX at *; omega) (by unfold I64MAX at *; omega)
        simp only [List.map_cons, List.sum_cons]
        rw [hw]
        have key := ih (rem - min rem o.qty) (fun x hx => ho x (List.mem_cons_of_mem _ hx))
          (by omega) (by omega)
        have hfill : 0 ≤ min rem o.qty ∧ min rem o.qty ≤ o.qty := by omega
        have hterm : min rem o.qty * o.price ≤ o.qty * o.price :=
          mul_le_mul_of_nonneg_right (by omega) hohead.2
        have htermnn : 0 ≤ min rem o.qty * o.price := mul_nonneg hfill.1 hohead.2
        constructor
        · omega
        · omega
      · rw [if_pos (by simpa using h2)]
        simp only [List.map_cons, List.sum_cons]
        constructor
        · simp
        · simp
          omega

theorem match_walk_marks (side : Side) (limit : Int) :
    ∀ (orders : List Order) (rem : Int),
      (∀ o ∈ orders, o.qty ≠ 0) →
      (match_walk side limit orders rem).2.2 =
        (((match_walk side limit orders rem).1).filter (fun o => o.qty == 0)).map
          (fun o => o.order_id) := by
  intro orders
  induction orders with
  | nil =>
    intro rem _
    simp [match_walk]
  | cons o rest ih =>
    intro rem ho
    have hfilter0 : ∀ l : List Order, (∀ x ∈ l, x.qty ≠ 0) →
        l.filter (fun o => o.qty == 0) = [] := by
      intro l hl
      rw [List.filter_eq_nil_iff]
      intro a ha
      simpa using hl a ha
    simp only [match_walk]
    by_cases h1 : rem ≤ 0
    · rw [if_pos h1]
      rw [hfilter0 (o :: rest) ho]
      rfl
    · rw [if_neg h1]
      by_cases h2 : price_acceptable side o.price limit = true
      · rw [if_neg (not_not_intro h2)]
        have key := ih (wrapI64 (rem - min rem o.qty))
          (fun x hx => ho x (List.mem_cons_of_mem _ hx))
        by_cases hz : o.qty - min rem o.qty = 0
        · rw [if_pos (by exact hz)]
          rw [List.filter_cons_of_pos (by simpa using hz)]
          simp only [List.map_cons]
          rw [key]
        · rw [if_neg (by exact hz)]
          rw [List.filter_cons_of_neg (by simpa using hz)]
          exact key
      · rw [if_pos (by simpa using h2)]
        rw [hfilter0 (o :: rest) ho]
        rfl

theorem accum_fills_go :
    ∀ (fills : List Fill) (acc1 acc2 : Int),
      0 ≤ acc1 → 0 ≤ acc2 →
      acc1 + (fills.map Fill.qty).sum ≤ I64MAX →
      acc2 + (fills.map (fun f => f.qty * f.price)).sum ≤ 2 ^ 127 - 1 →
      (∀ f ∈ fills, 0 ≤ f.qty ∧ 0 ≤ f.qty * f.price) →
      fills.foldl
        (fun acc f => (wrapI64 (acc.1 + f.qty), wrapI128 (acc.2 + f.qty * f.price)))
        (acc1, acc2) =
      (acc1 + (fills.map Fill.qty).sum,
        acc2 + (fills.map (fun f => f.qty * f.price)).sum) := by
  intro fills
  induction fills with
  | nil =>
    intro acc1 acc2 _ _ _ _ _
    simp
  | cons f rest ih =>
    intro acc1 acc2 h1 h2 h3 h4 h5
    have hf := h5 f (List.mem_cons_self _ _)
    have hrq : 0 ≤ (rest.map Fill.qty).sum := by
      apply List.sum_nonneg
      intro x hx
      obtain ⟨g, hg, rfl⟩ := List.mem_map.mp hx
      exact (h5 g (List.mem_cons_of_mem _ hg)).1
    have hrqp : 0 ≤ (rest.map (fun f => f.qty * f.price)).sum := by
      apply List.sum_nonneg
      intro x hx
      obtain ⟨g, hg, rfl⟩ := List.mem_map.mp hx
      exact (h5 g (List.mem_cons_of_mem _ hg)).2
    rw [List.map_cons, List.sum_cons] at h3
    rw [List.map_cons, List.sum_cons] at h4
    simp only [List.foldl_cons]
    have e1 : wrapI64 (acc1 + f.qty) = acc1 + f.qty := by
      apply wrapI64_eq_of_bounds
      · omega
      · unfold I64MAX at h3
        omega
    have e2 : wrapI128 (acc2 + f.qty * f.price) = acc2 + f.qty * f.price := by
      apply wrapI128_eq_of_bounds
      · omega
      · omega
    rw [e1, e2]
    rw [ih (acc1 + f.qty) (acc2 + f.qty * f.price) (by omega) (by omega)
      (by omega) (by omega) (fun g hg => h5 g (List.mem_cons_of_mem _ hg))]
    simp only [List.map_cons, List.sum_cons, Prod.mk.injEq]
    constructor
    · ring
    · ring

theorem accum_fills_eq (fills : List Fill)
    (h1 : (fills.map Fill.qty).sum ≤ I64MAX)
    (h2 : (fills.map (fun f => f.qty * f.price)).sum ≤ 2 ^ 127 - 1)
    (h3 : ∀ f ∈ fills, 0 ≤ f.qty ∧ 0 ≤ f.qty * f.price) :
    accum_fills fills =
      ((fills.map Fill.qty).sum, (fills.map (fun f => f.qty * f.price)).sum) := by
  unfold accum_fills
  have := accum_fills_go fills 0 0 le_rfl le_rfl (by omega) (by omega) h3
  simpa using this

theorem remove_first_eq_none :
    ∀ (l : List Order) (oid : Nat), oid ∉ l.map (fun o => o.order_id) →
      remove_first l oid = none := by
  intro l
  induction l with
  | nil =>
    intro oid _
    rfl
  | cons x xs ih =>
    intro oid h
    simp only [List.map_cons, List.mem_cons] at h
    push_neg at h
    simp only [remove_first]
    rw [if_neg (fun he => h.1 he.symm), ih oid (by simpa using h.2)]

theorem remove_first_cons_ne {x : Order} {oid : Nat} (h : ¬ x.order_id = oid)
    (l : List Order) :
    remove_first (x :: l) oid =
      match remove_first l oid with
      | some r => some (r.1, x :: r.2)
      | none => none := by
  simp only [remove_first, if_neg h]
  cases hr : remove_first l oid with
  | some p => rfl
  | none => rfl

theorem remove_first_step_cons_ne {x : Order} {oid : Nat} (h : ¬ x.order_id = oid)
    (l : List Order) :
    remove_first_step (x :: l) oid = x :: remove_first_step l oid := by
  unfold remove_first_step
  rw [remove_first_cons_ne h]
  cases hr : remove_first l oid with
  | some p => rfl
  | none => rfl

theorem foldl_remove_step_notmem :
    ∀ (ids : List Nat) (x : Order) (l : List Order), x.order_id ∉ ids →
      ids.foldl remove_first_step (x :: l) = x :: ids.foldl remove_first_step l := by
  intro ids
  induction ids with
  | nil =>
    intro x l _
    rfl
  | cons i is ih =>
    intro x l h
    simp only [List.mem_cons] at h
    push_neg at h
    simp only [List.foldl_cons]
    rw [remove_first_step_cons_ne h.1]
    exact ih x (remove_first_step l i) h.2

theorem foldl_remove_filter (p : Order → Bool) :
    ∀ (L : List Order), (L.map (fun o => o.order_id)).Nodup →
      ((L.filter p).map (fun o => o.order_id)).foldl remove_first_step L =
        L.filter (fun o => ! p o) := by
  intro L
  induction L with
  | nil =>
    intro _
    rfl
  | cons x rest ih =>
    intro hN
    simp only [List.map_cons, List.nodup_cons] at hN
    by_cases hp : p x = true
    · rw [List.filter_cons_of_pos hp]
      simp only [List.map_cons, List.foldl_cons]
      have hstep : remove_first_step (x :: rest) x.order_id = rest := by
        simp [remove_first_step, remove_first]
      rw [hstep, ih hN.2, List.filter_cons_of_neg (by simp [hp])]
    · rw [List.filter_cons_of_neg hp]
      have hmem : x.order_id ∉ (List.filter p rest).map (fun o => o.order_id) := by
        intro hmem
        obtain ⟨g, hg, he⟩ := List.mem_map.mp hmem
        exact hN.1 (List.mem_map.mpr ⟨g, List.mem_of_mem_filter hg, he⟩)
      rw [foldl_remove_step_notmem _ x rest hmem, ih hN.2,
        List.filter_cons_of_pos (by simp [hp])]

theorem remove_marked_buy (n : Nat) :
    ∀ (ids : List Nat) (bids asks : List Order),
      (∀ i ∈ ids, i ∉ bids.map (fun o => o.order_id)) →
      remove_marked ⟨n, bids, asks⟩ ids = ⟨n, bids, ids.foldl remove_first_step asks⟩ := by
  intro ids
  induction ids with
  | nil =>
    intro bids asks _
    rfl
  | cons i is ih =>
    intro bids asks h
    have hi := h i (List.mem_cons_self _ _)
    have hstep : remove_marked ⟨n, bids, asks⟩ (i :: is) =
        remove_marked ⟨n, bids, remove_first_step asks i⟩ is := by
      unfold remove_marked
      simp only [List.foldl_cons]
      congr 1
      unfold BookArea.remove_order
      rw [remove_first_eq_none bids i hi]
      unfold remove_first_step
      cases hr : remove_first asks i with
      | some p => rfl
      | none => rfl
    rw [hstep, List.foldl_cons]
    exact ih bids (remove_first_step asks i) (fun j hj => h j (List.mem_cons_of_mem _ hj))

theorem remove_marked_sell (n : Nat) :
    ∀ (ids : List Nat) (bids asks : List Order),
      (∀ i ∈ ids, i ∉ asks.map (fun o => o.order_id)) →
      remove_marked ⟨n, bids, asks⟩ ids = ⟨n, ids.foldl remove_first_step bids, asks⟩ := by
  intro ids
  induction ids with
  | nil =>
    intro bids asks _
    rfl
  | cons i is ih =>
    intro bids asks h
    have hi := h i (List.mem_cons_self _ _)
    have hstep : remove_marked ⟨n, bids, asks⟩ (i :: is) =
        remove_marked ⟨n, remove_first_step bids i, asks⟩ is := by
      unfold remove_marked
      simp only [List.foldl_cons]
      congr 1
      unfold BookArea.remove_order
      unfold remove_first_step
      cases hb : remove_first bids i with
      | some p => rfl
      | none =>
        rw [remove_first_eq_none asks i hi]
    rw [hstep, List.foldl_cons]
    exact ih (remove_first_step bids i) asks (fun j hj => h j (List.mem_cons_of_mem _ hj))

theorem fills_notional_le_qty_mul (fills : List Fill)
    (h : ∀ f ∈ fills, 0 ≤ f.qty ∧ f.price ≤ I64MAX) :
    (fills.map (fun f => f.qty * f.price)).sum ≤ I64MAX * (fills.map Fill.qty).sum := by
  induction fills with
  | nil => simp
  | cons f rest ih =>
    simp only [List.map_cons, List.sum_cons]
    have hf := h f (List.mem_cons_self _ _)
    have h1 : f.qty * f.price ≤ I64MAX * f.qty := by
      have := mul_le_mul_of_nonneg_left hf.2 hf.1
      linarith [this]
    have h2 := ih (fun g hg => h g (List.mem_cons_of_mem _ hg))
    rw [mul_add]
    linarith

theorem match_against_book_buy_book (b : BookArea) (qty limit_px : Int)
    (hids : ((b.bids ++ b.asks).map (fun o => o.order_id)).Nodup)
    (hlen : b.asks.length ≤ 19)
    (hqty : ∀ o ∈ b.asks, o.qty ≠ 0) :
    (match_against_book b .Buy qty limit_px).2 =
      ⟨b.next_order_id, b.bids,
        ((match_walk .Buy limit_px b.asks qty).1).filter (fun o => ! (o.qty == 0))⟩ := by
  have hidseq := match_walk_ids .Buy limit_px b.asks qty
  have hmarks := match_walk_marks .Buy limit_px b.asks qty hqty
  have hmlen : (match_walk .Buy limit_px b.asks qty).2.2.length ≤ 19 := by
    rw [hmarks, List.length_map]
    calc ((match_walk .Buy limit_px b.asks qty).1.filter (fun o => o.qty == 0)).length
        ≤ (match_walk .Buy limit_px b.asks qty).1.length := List.length_filter_le _ _
      _ = b.asks.length := by
          have := congrArg List.length hidseq
          simpa using this
      _ ≤ 19 := hlen
  rw [List.map_append] at hids
  have hnodupa : (b.asks.map (fun o => o.order_id)).Nodup := hids.of_append_right
  have hdisj := List.disjoint_of_nodup_append hids
  have hnodupw : ((match_walk .Buy limit_px b.asks qty).1.map (fun o => o.order_id)).Nodup := by
    rw [hidseq]
    exact hnodupa
  have hnotbids : ∀ i ∈ (match_walk .Buy limit_px b.asks qty).2.2,
      i ∉ b.bids.map (fun o => o.order_id) := by
    intro i hi
    rw [hmarks] at hi
    obtain ⟨g, hg, rfl⟩ := List.mem_map.mp hi
    have hgW : g.order_id ∈ (match_walk .Buy limit_px b.asks qty).1.map (fun o => o.order_id) :=
      List.mem_map.mpr ⟨g, List.mem_of_mem_filter hg, rfl⟩
    rw [hidseq] at hgW
    exact fun hbb => hdisj hbb hgW
  show remove_marked { b with asks := (match_walk .Buy limit_px b.asks qty).1 }
      ((match_walk .Buy limit_px b.asks qty).2.2.take 19) = _
  rw [List.take_of_length_le hmlen]
  rw [show ({ b with asks := (match_walk .Buy limit_px b.asks qty).1 } : BookArea) =
    ⟨b.next_order_id, b.bids, (match_walk .Buy limit_px b.asks qty).1⟩ from rfl]
  rw [remove_marked_buy b.next_order_id _ b.bids _ hnotbids]
  rw [hmarks, foldl_remove_filter _ _ hnodupw]

theorem match_against_book_sell_book (b : BookArea) (qty limit_px : Int)
    (hids : ((b.bids ++ b.asks).map (fun o => o.order_id)).Nodup)
    (hlen : b.bids.length ≤ 19)
    (hqty : ∀ o ∈ b.bids, o.qty ≠ 0) :
    (match_against_book b .Sell qty limit_px).2 =
      ⟨b.next_order_id,
        ((match_walk .Sell limit_px b.bids qty).1).filter (fun o => ! (o.qty == 0)),
        b.asks⟩ := by
  have hidseq := match_walk_ids .Sell limit_px b.bids qty
  have hmarks := match_walk_marks .Sell limit_px b.bids qty hqty
  have hmlen : (match_walk .Sell limit_px b.bids qty).2.2.length ≤ 19 := by
    rw [hmarks, List.length_map]
    calc ((match_walk .Sell limit_px b.bids qty).1.filter (fun o => o.qty == 0)).length
        ≤ (match_walk .Sell limit_px b.bids qty).1.length := List.length_filter_le _ _
      _ = b.bids.length := by
          have := congrArg List.length hidseq
          simpa using this
      _ ≤ 19 := hlen
  rw [List.map_append] at hids
  have hdisj := List.disjoint_of_nodup_append hids
  have hnodupb : (b.bids.map (fun o => o.order_id)).Nodup := hids.of_append_left
  have hnodupw : ((match_walk .Sell limit_px b.bids qty).1.map (fun o => o.order_id)).Nodup := by
    rw [hidseq]
    exact hnodupb
  have hnotasks : ∀ i ∈ (match_walk .Sell limit_px b.bids qty).2.2,
      i ∉ b.asks.map (fun o => o.order_id) := by
    intro i hi
    rw [hmarks] at hi
    obtain ⟨g, hg, rfl⟩ := List.mem_map.mp hi
    have hgW : g.order_id ∈ (match_walk .Sell limit_px b.bids qty).1.map (fun o => o.order_id) :=
      List.mem_map.mpr ⟨g, List.mem_of_mem_filter hg, rfl⟩
    rw [hidseq] at hgW
    exact hdisj hgW
  show remove_marked { b with bids := (match_walk .Sell limit_px b.bids qty).1 }
      ((match_walk .Sell limit_px b.bids qty).2.2.take 19) = _
  rw [List.take_of_length_le hmlen]
  rw [show ({ b with bids := (match_walk .Sell limit_px b.bids qty).1 } : BookArea) =
    ⟨b.next_order_id, (match_walk .Sell limit_px b.bids qty).1, b.asks⟩ from rfl]
  rw [remove_marked_sell b.next_order_id _ _ b.asks hnotasks]
  rw [hmarks, foldl_remove_filter _ _ hnodupw]

theorem vwap_in_range (fills : List Fill)
    (hb : ∀ f ∈ fills, 0 ≤ f.qty ∧ f.qty ≤ I64MAX ∧ 0 ≤ f.price ∧ f.price ≤ I64MAX)
    (hpos : 0 < (fills.map Fill.qty).sum)
    (hnn : 0 ≤ (fills.map (fun f => f.qty * f.price)).sum) :
    wrapI64 (Int.tdiv ((fills.map (fun f => f.qty * f.price)).sum)
        ((fills.map Fill.qty).sum)) =
      Int.tdiv ((fills.map (fun f => f.qty * f.price)).sum) ((fills.map Fill.qty).sum) := by
  have hle : (fills.map (fun f => f.qty * f.price)).sum ≤ I64MAX * (fills.map Fill.qty).sum :=
    fills_notional_le_qty_mul fills (fun f hf => ⟨(hb f hf).1, (hb f hf).2.2.2⟩)
  have h1 : Int.tdiv ((fills.map (fun f => f.qty * f.price)).sum) ((fills.map Fill.qty).sum) =
      ((fills.map (fun f => f.qty * f.price)).sum) / ((fills.map Fill.qty).sum) :=
    Int.tdiv_eq_ediv hnn (by omega)
  have h2 : ((fills.map (fun f => f.qty * f.price)).sum) / ((fills.map Fill.qty).sum) ≤
      (I64MAX * (fills.map Fill.qty).sum) / ((fills.map Fill.qty).sum) :=
    Int.ediv_le_ediv hpos hle
  have h3 : (I64MAX * (fills.map Fill.qty).sum) / ((fills.map Fill.qty).sum) = I64MAX :=
    Int.mul_ediv_cancel _ (by omega)
  have h4 : 0 ≤ ((fills.map (fun f => f.qty * f.price)).sum) / ((fills.map Fill.qty).sum) :=
    Int.ediv_nonneg hnn (by omega)
  rw [h1]
  apply wrapI64_eq_of_bounds
  · unfold I64MAX at *
    omega
  · unfold I64MAX at *
    omega

/-- **C5.** `match_against_book` walks the contra side from the best price,
fills only resting orders whose price does not cross the limit (asks at
price ≤ limit for buys, bids at price ≥ limit for sells — never worse than
the limit), stops when the limit is crossed or the quantity is exhausted,
removes exactly the fully-consumed orders while leaving the incoming
order's own side untouched, and returns `filled_qty = Σ qty_i` and
`VWAP = Σ(qty_i·price_i) / Σ qty_i` (truncating division) over the fills.
Stated for well-formed books — positive in-range resting quantities,
nonnegative in-range prices, unique order ids, side depth at most the
19-order capacity, in-range incoming quantity, and total resting notional
within `i128` — so that no wrapping occurs. -/
theorem match_against_book_spec (b : BookArea) (side : Side) (qty limit_px : Int)
    (hids : ((b.bids ++ b.asks).map (fun o => o.order_id)).Nodup)
    (hlen : (contra_side side b).length ≤ 19)
    (horders : ∀ o ∈ contra_side side b,
      0 < o.qty ∧ o.qty ≤ I64MAX ∧ 0 ≤ o.price ∧ o.price ≤ I64MAX)
    (hqty : 0 ≤ qty ∧ qty ≤ I64MAX)
    (hnot : ((contra_side side b).map (fun o => o.qty * o.price)).sum ≤ 2 ^ 127 - 1) :
    (∀ f ∈ (match_walk side limit_px (contra_side side b) qty).2.1,
      price_acceptable side f.price limit_px = true) ∧
    (match_against_book b side qty limit_px).1.filled_qty =
      (((match_walk side limit_px (contra_side side b) qty).2.1).map Fill.qty).sum ∧
    (0 < (((match_walk side limit_px (contra_side side b) qty).2.1).map Fill.qty).sum →
      (match_against_book b side qty limit_px).1.vwap_px =
        Int.tdiv
          ((((match_walk side limit_px (contra_side side b) qty).2.1).map
            (fun f => f.qty * f.price)).sum)
          ((((match_walk side limit_px (contra_side side b) qty).2.1).map Fill.qty).sum)) ∧
    contra_side side (match_against_book b side qty limit_px).2 =
      ((match_walk side limit_px (contra_side side b) qty).1).filter
        (fun o => ! (o.qty == 0)) ∧
    side_orders side (match_against_book b side qty limit_px).2 = side_orders side b := by
  have hbounds := match_walk_fill_bounds side limit_px (contra_side side b) qty horders
    hqty.1 hqty.2
  have hqsum := match_walk_qty_sum side limit_px (contra_side side b) qty
    (fun o ho => (horders o ho).1) hqty.1 hqty.2
  have hnsum := match_walk_notional_sum side limit_px (contra_side side b) qty
    (fun o ho => ⟨(horders o ho).1, (horders o ho).2.2.1⟩) hqty.1 hqty.2
  have haccum := accum_fills_eq (match_walk side limit_px (contra_side side b) qty).2.1
    (le_trans hqsum.2 hqty.2) (le_trans hnsum.2 hnot)
    (fun f hf => ⟨(hbounds f hf).1, mul_nonneg (hbounds f hf).1 (hbounds f hf).2.2.1⟩)
  have hfilled : (match_against_book b side qty limit_px).1.filled_qty =
      (((match_walk side limit_px (contra_side side b) qty).2.1).map Fill.qty).sum := by
    show (accum_fills (match_walk side limit_px (contra_side side b) qty).2.1).1 = _
    rw [haccum]
  refine ⟨?_, hfilled, ?_, ?_, ?_⟩
  · intro f hf
    exact (match_walk_fill_mem side limit_px (contra_side side b) qty f hf).1
  · intro hpos
    show (if (accum_fills (match_walk side limit_px (contra_side side b) qty).2.1).1 > 0
        then wrapI64 (Int.tdiv
          (accum_fills (match_walk side limit_px (contra_side side b) qty).2.1).2
          (accum_fills (match_walk side limit_px (contra_side side b) qty).2.1).1)
        else 0) = _
    rw [haccum]
    rw [if_pos (by simpa using hpos)]
    exact vwap_in_range _ hbounds hpos hnsum.1
  · cases side
    · exact congrArg BookArea.asks (match_against_book_buy_book b qty limit_px hids hlen
        (fun o ho => by have := (horders o ho).1; omega))
    · exact congrArg BookArea.bids (match_against_book_sell_book b qty limit_px hids hlen
        (fun o ho => by have := (horders o ho).1; omega))
  · cases side
    · have hb := match_against_book_buy_book b qty limit_px hids hlen
        (fun o ho => by have := (horders o ho).1; omega)
      show (match_against_book b .Buy qty limit_px).2.bids = b.bids
      rw [hb]
    · have hb := match_against_book_sell_book b qty limit_px hids hlen
        (fun o ho => by have := (horders o ho).1; omega)
      show (match_against_book b .Sell qty limit_px).2.asks = b.asks
      rw [hb]

/-- Witness for C5: the spec scenario — one resting ask of 5000 at $100.50
(1e6-scaled), buy 5000 at limit $100.50: fills exactly 5000 at VWAP
$100.50 and the ask is fully removed. -/
theorem match_against_book_spec_witness :
    (match_against_book ⟨2, [], [⟨1, 5, Side.Sell, 100500000, 5000000000, 10⟩]⟩ .Buy
      5000000000 100500000).1.filled_qty = 5000000000 ∧
    (match_against_book ⟨2, [], [⟨1, 5, Side.Sell, 100500000, 5000000000, 10⟩]⟩ .Buy
      5000000000 100500000).1.vwap_px = 100500000 ∧
    (match_against_book ⟨2, [], [⟨1, 5, Side.Sell, 100500000, 5000000000, 10⟩]⟩ .Buy
      5000000000 100500000).2.asks = [] := by
  have h := match_against_book_spec ⟨2, [], [⟨1, 5, Side.Sell, 100500000, 5000000000, 10⟩]⟩
    .Buy 5000000000 100500000 (by decide) (by decide) (by decide) (by decide) (by decide)
  refine ⟨?_, ?_, ?_⟩
  · rw [h.2.1]
    decide
  · rw [h.2.2.1 (by decide)]
    decide
  · have e := h.2.2.2.1
    rw [show contra_side .Buy (match_against_book
        ⟨2, [], [⟨1, 5, Side.Sell, 100500000, 5000000000, 10⟩]⟩ .Buy
        5000000000 100500000).2 = (match_against_book
        ⟨2, [], [⟨1, 5, Side.Sell, 100500000, 5000000000, 10⟩]⟩ .Buy
        5000000000 100500000).2.asks from rfl] at e
    rw [e]
    decide

end Perc
